import Mathlib

/-!
# Verification of the `intl-lens` backend (crates/intl-lens/src/backend.rs)

A shallow embedding of the request-handling core of the i18n language server:
the text-preserving JSON insertion engine (`insert_key_into_json` and its
helpers), the diagnostics computation, the inlay-hint rendering, the
code-action key round trip, and the completion-prefix extraction.

Conventions of the embedding:

* Rust strings are modelled as `List Char` (Unicode scalar values).  Rust byte
  offsets into a string are modelled as character offsets; every offset the
  engine manipulates is produced by a search in the same string and consumed by
  a search or slice in the same string, and the map from character offsets to
  UTF-8 byte offsets of character boundaries is strictly monotone, so the two
  indexings select the same positions.  Whenever the numeric *value* of a Rust
  `len()` escapes into an observable result (cursor columns, the raw
  placeholder length test) the UTF-8 byte length `utf8Len` is used, matching
  `str::len`.
* `serde_json::from_str::<Value>` is modelled by a fuel-indexed recursive
  descent parser `from_str`.  String contents are kept as their raw (escaped)
  character sequences and numbers as raw lexemes, since the insertion engine
  only consumes the object *shape* of the parsed value.
* Rust `char::is_whitespace` is modelled by `Char.isWhitespace` (space, tab,
  CR, LF); the JSON documents the engine manipulates contain no exotic
  Unicode whitespace.
-/

namespace IntlLens

/-- Coercion from Lean string literals to the `List Char` representation. -/
def str (s : String) : List Char := s.data

/-! ## Splitting on a separator character

`splitCh sep l` is the list of maximal separator-free chunks of `l`,
with the semantics of Rust's `str::split(sep)`:
`"a.b" ↦ ["a","b"]`, `"" ↦ [""]`, `"a." ↦ ["a",""]`. -/

/-- Split a character list at every occurrence of `sep` (the occurrences are
dropped; `n` separators yield `n + 1` chunks). -/
def splitCh (sep : Char) : List Char → List (List Char)
  | [] => [[]]
  | c :: rest =>
    if c = sep then [] :: splitCh sep rest
    else
      match splitCh sep rest with
      | [] => [[c]]
      | h :: t => (c :: h) :: t

theorem splitCh_ne_nil (sep : Char) (l : List Char) : splitCh sep l ≠ [] := by
  induction l with
  | nil => simp [splitCh]
  | cons c rest ih =>
    simp only [splitCh]
    split
    · simp
    · cases h : splitCh sep rest <;> simp

theorem mem_of_mem_splitCh {sep : Char} {l : List Char} {piece : List Char} {c : Char}
    (hp : piece ∈ splitCh sep l) (hc : c ∈ piece) : c ∈ l := by
  induction l generalizing piece with
  | nil =>
    simp [splitCh] at hp
    subst hp
    simp at hc
  | cons d rest ih =>
    by_cases hds : d = sep
    · rw [splitCh, if_pos hds] at hp
      rcases List.mem_cons.mp hp with hp | hp
      · subst hp; simp at hc
      · exact List.mem_cons_of_mem _ (ih hp hc)
    · cases hsp : splitCh sep rest with
      | nil => exact absurd hsp (splitCh_ne_nil sep rest)
      | cons h t =>
        rw [splitCh, if_neg hds, hsp] at hp
        have hh : h ∈ splitCh sep rest := by rw [hsp]; exact List.mem_cons_self h t
        rcases List.mem_cons.mp hp with hp | hp
        · subst hp
          rcases List.mem_cons.mp hc with hc | hc
          · simp [hc]
          · exact List.mem_cons_of_mem _ (ih hh hc)
        · have : piece ∈ splitCh sep rest := by rw [hsp]; exact List.mem_cons_of_mem h hp
          exact List.mem_cons_of_mem _ (ih this hc)

theorem not_sep_mem_splitCh {sep : Char} {l : List Char} {piece : List Char}
    (hp : piece ∈ splitCh sep l) : sep ∉ piece := by
  induction l generalizing piece with
  | nil =>
    simp [splitCh] at hp
    subst hp
    simp
  | cons d rest ih =>
    by_cases hds : d = sep
    · rw [splitCh, if_pos hds] at hp
      rcases List.mem_cons.mp hp with hp | hp
      · subst hp; simp
      · exact ih hp
    · cases hsp : splitCh sep rest with
      | nil => exact absurd hsp (splitCh_ne_nil sep rest)
      | cons h t =>
        rw [splitCh, if_neg hds, hsp] at hp
        have hh : h ∈ splitCh sep rest := by rw [hsp]; exact List.mem_cons_self h t
        rcases List.mem_cons.mp hp with hp | hp
        · subst hp
          intro hmem
          rcases List.mem_cons.mp hmem with hmem | hmem
          · exact hds hmem.symm
          · exact ih hh hmem
        · have : piece ∈ splitCh sep rest := by rw [hsp]; exact List.mem_cons_of_mem h hp
          exact ih this

/-- Join chunks with a separator character (the inverse of `splitCh`;
the semantics of Rust's `join("\n")` / `Vec::join`). -/
def joinCh (sep : Char) : List (List Char) → List Char
  | [] => []
  | [x] => x
  | x :: y :: t => x ++ sep :: joinCh sep (y :: t)

theorem joinCh_cons_of_ne_nil (sep : Char) (x : List Char) {xs : List (List Char)}
    (h : xs ≠ []) : joinCh sep (x :: xs) = x ++ sep :: joinCh sep xs := by
  cases xs with
  | nil => exact absurd rfl h
  | cons y t => rfl

theorem joinCh_splitCh (sep : Char) (l : List Char) : joinCh sep (splitCh sep l) = l := by
  induction l with
  | nil => rfl
  | cons c rest ih =>
    by_cases hds : c = sep
    · rw [splitCh, if_pos hds,
        joinCh_cons_of_ne_nil sep [] (splitCh_ne_nil sep rest), ih, hds]
      rfl
    · cases hsp : splitCh sep rest with
      | nil => exact absurd hsp (splitCh_ne_nil sep rest)
      | cons h t =>
        rw [splitCh, if_neg hds, hsp]
        rw [hsp] at ih
        cases t with
        | nil =>
          simp only [joinCh] at ih ⊢
          rw [ih]
        | cons z zs =>
          have ih' : h ++ sep :: joinCh sep (z :: zs) = rest := ih
          show c :: (h ++ sep :: joinCh sep (z :: zs)) = c :: rest
          rw [ih']

theorem joinCh_concat_nil (sep : Char) {xs : List (List Char)} (h : xs ≠ []) :
    joinCh sep (xs ++ [[]]) = joinCh sep xs ++ [sep] := by
  induction xs with
  | nil => exact absurd rfl h
  | cons x xs ih =>
    cases xs with
    | nil => rfl
    | cons y t =>
      rw [List.cons_append, joinCh_cons_of_ne_nil sep x (by simp),
        joinCh_cons_of_ne_nil sep x (by simp), ih (by simp)]
      simp

theorem length_splitCh (sep : Char) (l : List Char) :
    (splitCh sep l).length = l.count sep + 1 := by
  induction l with
  | nil => simp [splitCh]
  | cons c rest ih =>
    by_cases hds : c = sep
    · rw [splitCh, if_pos hds]
      simp [hds, List.count_cons, ih]
    · cases hsp : splitCh sep rest with
      | nil => exact absurd hsp (splitCh_ne_nil sep rest)
      | cons h t =>
        rw [splitCh, if_neg hds, hsp]
        rw [hsp] at ih
        simp only [List.length_cons] at ih ⊢
        rw [ih]
        simp [List.count_cons, hds]

theorem splitCh_of_not_mem {sep : Char} {l : List Char} (h : sep ∉ l) :
    splitCh sep l = [l] := by
  induction l with
  | nil => rfl
  | cons c rest ih =>
    have hcs : ¬(c = sep) := fun hc => h (hc ▸ List.mem_cons_self c rest)
    rw [splitCh, if_neg hcs, ih (fun hm => h (List.mem_cons_of_mem c hm))]

theorem splitCh_ends_sep {sep : Char} {l : List Char} (h : l.getLast? = some sep) :
    ∃ ys, splitCh sep l = ys ++ [[]] ∧ ys ≠ [] := by
  induction l with
  | nil => simp at h
  | cons c rest ih =>
    cases hr : rest with
    | nil =>
      subst hr
      simp only [List.getLast?_singleton, Option.some_inj] at h
      subst h
      exact ⟨[[]], by simp [splitCh], by simp⟩
    | cons d ds =>
      have hrest : rest ≠ [] := by simp [hr]
      have hlast : rest.getLast? = some sep := by
        rw [← h, hr, List.getLast?_cons_cons]
      obtain ⟨ys, hys, hysne⟩ := ih hlast
      rw [hr] at hys
      by_cases hds : c = sep
      · refine ⟨[] :: ys, ?_, by simp⟩
        rw [splitCh, if_pos hds, hys]
        rfl
      · cases ys with
        | nil => exact absurd rfl hysne
        | cons y ys' =>
          refine ⟨(c :: y) :: ys', ?_, by simp⟩
          rw [splitCh, if_neg hds, hys]
          rfl

/-- Strip one trailing carriage return, the way each line produced by Rust's
`str::lines` has one trailing `\r` removed. -/
def stripCr (l : List Char) : List Char :=
  if l.getLast? = some '\r' then l.dropLast else l

theorem mem_of_getLast?_eq {α : Type _} {l : List α} {c : α} (h : l.getLast? = some c) :
    c ∈ l := by
  cases l with
  | nil => simp at h
  | cons a t =>
    rw [List.getLast?_eq_getLast _ (by simp), Option.some_inj] at h
    have hm := List.getLast_mem (l := a :: t) (by simp)
    rw [h] at hm
    exact hm

theorem stripCr_of_not_mem {l : List Char} (h : '\r' ∉ l) : stripCr l = l := by
  unfold stripCr
  split
  · rename_i hl
    exact absurd (mem_of_getLast?_eq hl) h
  · rfl

/-- The model of Rust's `str::lines()`: split on `'\n'`, drop the final empty
chunk produced by a trailing newline, and strip one trailing `'\r'` from each
line. -/
def rustLines (s : List Char) : List (List Char) :=
  if s = [] then []
  else if s.getLast? = some '\n' then ((splitCh '\n' s).dropLast).map stripCr
  else (splitCh '\n' s).map stripCr

theorem map_stripCr_id {ls : List (List Char)} (h : ∀ p ∈ ls, '\r' ∉ p) :
    ls.map stripCr = ls := by
  induction ls with
  | nil => rfl
  | cons p t ih =>
    rw [List.map_cons, stripCr_of_not_mem (h p (List.mem_cons_self p t)),
      ih (fun q hq => h q (List.mem_cons_of_mem p hq))]

/-- For carriage-return-free text, `str::lines` followed by `join("\n")` plus
the trailing-newline flag reconstructs the input byte-for-byte. -/
theorem rustLines_reconstruct {s : List Char} (hne : s ≠ []) (hcr : '\r' ∉ s) :
    joinCh '\n' (rustLines s) ++ (if s.getLast? = some '\n' then ['\n'] else []) = s := by
  have hout : ∀ p ∈ splitCh '\n' s, '\r' ∉ p := by
    intro p hp hmem
    exact hcr (mem_of_mem_splitCh hp hmem)
  unfold rustLines
  rw [if_neg hne]
  by_cases hl : s.getLast? = some '\n'
  · obtain ⟨ys, hys, hysne⟩ := splitCh_ends_sep hl
    rw [if_pos hl, if_pos hl, hys, List.dropLast_concat, map_stripCr_id (by
      intro p hp
      exact hout p (by rw [hys]; exact List.mem_append_left _ hp))]
    rw [← joinCh_concat_nil '\n' hysne, ← hys, joinCh_splitCh]
  · rw [if_neg hl, if_neg hl, map_stripCr_id hout, joinCh_splitCh, List.append_nil]

theorem rustLines_ne_nil {s : List Char} (hne : s ≠ []) : rustLines s ≠ [] := by
  unfold rustLines
  rw [if_neg hne]
  by_cases hl : s.getLast? = some '\n'
  · obtain ⟨ys, hys, hysne⟩ := splitCh_ends_sep hl
    rw [if_pos hl, hys, List.dropLast_concat]
    simp [hysne]
  · rw [if_neg hl]
    simp [splitCh_ne_nil]

theorem sub_piece_of_mem_rustLines {s p : List Char} (hp : p ∈ rustLines s) :
    ∃ q ∈ splitCh '\n' s, p = stripCr q := by
  unfold rustLines at hp
  by_cases hne : s = []
  · rw [if_pos hne] at hp
    simp at hp
  · rw [if_neg hne] at hp
    by_cases hl : s.getLast? = some '\n'
    · rw [if_pos hl] at hp
      obtain ⟨q, hq, hqe⟩ := List.mem_map.mp hp
      exact ⟨q, (List.dropLast_sublist _).mem hq, hqe.symm⟩
    · rw [if_neg hl] at hp
      obtain ⟨q, hq, hqe⟩ := List.mem_map.mp hp
      exact ⟨q, hq, hqe.symm⟩

theorem not_nl_mem_rustLines {s p : List Char} (hp : p ∈ rustLines s) : '\n' ∉ p := by
  obtain ⟨q, hq, hqe⟩ := sub_piece_of_mem_rustLines hp
  intro hmem
  subst hqe
  unfold stripCr at hmem
  have hqn : '\n' ∉ q := not_sep_mem_splitCh hq
  split at hmem
  · exact hqn ((List.dropLast_sublist q).mem hmem)
  · exact hqn hmem

theorem mem_of_mem_rustLines {s p : List Char} {c : Char} (hp : p ∈ rustLines s)
    (hc : c ∈ p) : c ∈ s := by
  obtain ⟨q, hq, hqe⟩ := sub_piece_of_mem_rustLines hp
  subst hqe
  unfold stripCr at hc
  have : c ∈ q := by
    split at hc
    · exact (List.dropLast_sublist q).mem hc
    · exact hc
  exact mem_of_mem_splitCh hq this

theorem rustLines_singleton {e : List Char} (hnl : '\n' ∉ e) (hne : e ≠ []) :
    rustLines e = [stripCr e] := by
  unfold rustLines
  have hl : ¬e.getLast? = some '\n' := fun hl => hnl (mem_of_getLast?_eq hl)
  rw [if_neg hne, if_neg hl, splitCh_of_not_mem hnl]
  rfl

theorem stripCr_of_getLast_ne {l : List Char} (h : l.getLast? ≠ some '\r') :
    stripCr l = l := by
  unfold stripCr
  rw [if_neg h]

theorem joinCh_getLast?_of_last_ne_nil (sep : Char) {xs : List (List Char)} {p : List Char}
    (hx : xs.getLast? = some p) (hp : p ≠ []) :
    (joinCh sep xs).getLast? = p.getLast? := by
  induction xs with
  | nil => simp at hx
  | cons x t ih =>
    cases t with
    | nil =>
      rw [List.getLast?_singleton, Option.some_inj] at hx
      subst hx
      rfl
    | cons y t' =>
      rw [List.getLast?_cons_cons] at hx
      have hj := ih hx
      have hJne : joinCh sep (y :: t') ≠ [] := by
        intro hnil
        rw [hnil] at hj
        cases hpl : p.getLast? with
        | none =>
          cases p with
          | nil => exact hp rfl
          | cons a b => rw [List.getLast?_eq_getLast _ (by simp)] at hpl; simp at hpl
        | some c => rw [hpl] at hj; simp at hj
      rw [joinCh_cons_of_ne_nil sep x (by simp),
        List.getLast?_append_of_ne_nil _ (by simp)]
      cases hJ : joinCh sep (y :: t') with
      | nil => exact absurd hJ hJne
      | cons a b =>
        rw [← hJ, ← hj]
        rw [hJ, List.getLast?_cons_cons]

theorem joinCh_getLast?_of_last_nil (sep : Char) {xs : List (List Char)}
    (hx : xs.getLast? = some []) (hlen : 2 ≤ xs.length) :
    (joinCh sep xs).getLast? = some sep := by
  induction xs with
  | nil => simp at hx
  | cons x t ih =>
    cases t with
    | nil => simp at hlen
    | cons y t' =>
      rw [List.getLast?_cons_cons] at hx
      cases t' with
      | nil =>
        rw [List.getLast?_singleton, Option.some_inj] at hx
        subst hx
        show (x ++ [sep]).getLast? = some sep
        exact List.getLast?_concat x
      | cons z t'' =>
        have hj := ih hx (by simp only [List.length_cons]; omega)
        have hJne : joinCh sep (y :: z :: t'') ≠ [] := by
          intro hnil
          rw [hnil] at hj
          simp at hj
        rw [joinCh_cons_of_ne_nil sep x (by simp),
          List.getLast?_append_of_ne_nil _ (by simp)]
        cases hJ : joinCh sep (y :: z :: t'') with
        | nil => exact absurd hJ hJne
        | cons a b =>
          rw [← hj, hJ, List.getLast?_cons_cons]

/-! ## Miscellaneous string helpers -/

/-- Rust `str::trim` (whitespace from both ends). -/
def trimCh (l : List Char) : List Char :=
  ((l.dropWhile Char.isWhitespace).reverse.dropWhile Char.isWhitespace).reverse

/-- UTF-8 encoding of one Unicode scalar value, as byte values. -/
def utf8enc (c : Char) : List Nat :=
  let n := c.toNat
  if n < 128 then [n]
  else if n < 2048 then [192 + n / 64, 128 + n % 64]
  else if n < 65536 then [224 + n / 4096, 128 + n / 64 % 64, 128 + n % 64]
  else [240 + n / 262144, 128 + n / 4096 % 64, 128 + n / 64 % 64, 128 + n % 64]

/-- UTF-8 byte length of a string: the value of Rust `str::len`. -/
def utf8Len (l : List Char) : Nat := (l.map fun c => (utf8enc c).length).sum

/-- UTF-8 byte sequence of a string: the value of Rust `str::as_bytes`. -/
def utf8Bytes (l : List Char) : List Nat := l.flatMap utf8enc

/-- First byte of a character's UTF-8 encoding. -/
def utf8Head (c : Char) : Nat := (utf8enc c).headD 0

theorem utf8enc_ascii {c : Char} (h : c.toNat < 128) : utf8enc c = [c.toNat] := by
  unfold utf8enc
  rw [if_pos h]

theorem utf8Head_ascii {c : Char} (h : c.toNat < 128) : utf8Head c = c.toNat := by
  unfold utf8Head
  rw [utf8enc_ascii h]
  rfl

theorem utf8Head_ge_of_not_ascii {c : Char} (h : 128 ≤ c.toNat) : 192 ≤ utf8Head c := by
  unfold utf8Head utf8enc
  rw [if_neg (by omega)]
  by_cases h2 : c.toNat < 2048
  · rw [if_pos h2]; simp only [List.headD]; omega
  · rw [if_neg h2]
    by_cases h3 : c.toNat < 65536
    · rw [if_pos h3]; simp only [List.headD]; omega
    · rw [if_neg h3]; simp only [List.headD]; omega

theorem utf8Bytes_get_ascii {l : List Char} {k : Nat}
    (h : ∀ c ∈ l.take k, c.toNat < 128) :
    (utf8Bytes l).get? k = (l.get? k).map utf8Head := by
  induction l generalizing k with
  | nil => simp [utf8Bytes]
  | cons c t ih =>
    cases k with
    | zero =>
      have : utf8Bytes (c :: t) = utf8enc c ++ utf8Bytes t := rfl
      rw [this]
      cases henc : utf8enc c with
      | nil =>
        exfalso
        unfold utf8enc at henc
        by_cases h1 : c.toNat < 128
        · rw [if_pos h1] at henc; simp at henc
        · rw [if_neg h1] at henc
          by_cases h2 : c.toNat < 2048
          · rw [if_pos h2] at henc; simp at henc
          · rw [if_neg h2] at henc
            by_cases h3 : c.toNat < 65536
            · rw [if_pos h3] at henc; simp at henc
            · rw [if_neg h3] at henc; simp at henc
      | cons b bs =>
        simp [utf8Head, henc]
    | succ k' =>
      have hc : c.toNat < 128 := h c (by simp)
      have ht : ∀ d ∈ t.take k', d.toNat < 128 := by
        intro d hd
        exact h d (by rw [List.take_succ_cons]; exact List.mem_cons_of_mem c hd)
      have : utf8Bytes (c :: t) = utf8enc c ++ utf8Bytes t := rfl
      rw [this, utf8enc_ascii hc]
      simpa using ih ht

/-- Leftmost occurrence of a literal `needle` in `hay` (Rust `str::find`). -/
def findSub (hay needle : List Char) : Option Nat :=
  (List.range (hay.length + 1)).find? fun i => needle.isPrefixOf (hay.drop i)

/-- Rightmost occurrence of a literal `needle` in `hay` (Rust `str::rfind`). -/
def rfindSub (hay needle : List Char) : Option Nat :=
  (List.range (hay.length + 1)).reverse.find? fun i => needle.isPrefixOf (hay.drop i)

/-- Rust `str::rfind(char)`. -/
def rfindChar (l : List Char) (c : Char) : Option Nat :=
  (List.range l.length).reverse.find? fun i => l.get? i == some c

theorem rfindChar_eq_none_iff {l : List Char} {c : Char} :
    rfindChar l c = none ↔ c ∉ l := by
  unfold rfindChar
  rw [List.find?_eq_none]
  constructor
  · intro hall hmem
    obtain ⟨n, hn⟩ := List.mem_iff_get?.mp hmem
    have hlt : n < l.length := by
      rcases List.get?_eq_some.mp hn with ⟨h, _⟩
      exact h
    exact hall n (List.mem_reverse.mpr (List.mem_range.mpr hlt)) (by rw [beq_iff_eq]; exact hn)
  · intro hnm i _ hp
    rw [beq_iff_eq] at hp
    exact hnm (List.get?_mem hp)

/-! ## JSON parsing (`serde_json::from_str::<Value>`)

String bodies are kept as their raw escaped character runs and numbers as raw
lexemes: the insertion engine consumes only the object *structure* of the
parsed value.  Object members are kept in document order including duplicate
keys (serde's map keeps the last occurrence of a duplicate key; the engine
only asks whether *some* top-level value is an object, which coincides for
every document without duplicate keys). -/

/-- Generic JSON values (the shape of `serde_json::Value`). -/
inductive Json where
  | null : Json
  | bool (b : Bool) : Json
  | num (lexeme : List Char) : Json
  | str (body : List Char) : Json
  | arr (elems : List Json) : Json
  | obj (members : List (List Char × Json)) : Json

/-- `Value::is_object`. -/
def Json.isObjB : Json → Bool
  | .obj _ => true
  | _ => false

/-- `Value::as_object`, returning the member list. -/
def asObject : Json → Option (List (List Char × Json))
  | .obj ms => some ms
  | _ => none

/-- JSON insignificant whitespace (also what `char::is_whitespace` accepts on
the ASCII range the parser meets). -/
def jsonWs (c : Char) : Bool := c = ' ' || c = '\t' || c = '\n' || c = '\r'

/-- Skip insignificant whitespace. -/
def skipWs (l : List Char) : List Char := l.dropWhile jsonWs

/-- ASCII hex digit test. -/
def isHexCh (c : Char) : Bool :=
  c.isDigit || ('a' ≤ c && c ≤ 'f') || ('A' ≤ c && c ≤ 'F')

/-- Parse the remainder of a JSON string literal, the opening quote already
consumed; returns the raw body and the rest after the closing quote. -/
def parseStringBody : List Char → Option (List Char × List Char)
  | [] => none
  | '"' :: rest => some ([], rest)
  | '\\' :: e :: rest =>
    if e = 'u' then
      match rest with
      | h1 :: h2 :: h3 :: h4 :: rest2 =>
        if isHexCh h1 && isHexCh h2 && isHexCh h3 && isHexCh h4 then
          (fun p => ('\\' :: 'u' :: h1 :: h2 :: h3 :: h4 :: p.1, p.2)) <$>
            parseStringBody rest2
        else none
      | _ => none
    else if e = '"' || e = '\\' || e = '/' || e = 'b' || e = 'f' ||
        e = 'n' || e = 'r' || e = 't' then
      (fun p => ('\\' :: e :: p.1, p.2)) <$> parseStringBody rest
    else none
  | c :: rest =>
    if c.toNat < 32 then none
    else (fun p => (c :: p.1, p.2)) <$> parseStringBody rest

/-- A nonempty run of ASCII digits. -/
def digitRun (l : List Char) : Option (List Char × List Char) :=
  if (l.takeWhile Char.isDigit).isEmpty then none
  else some (l.takeWhile Char.isDigit, l.drop (l.takeWhile Char.isDigit).length)

/-- Optional leading minus sign of a number lexeme. -/
def signPart (l : List Char) : List Char × List Char :=
  match l with
  | '-' :: rest => (['-'], rest)
  | _ => ([], l)

/-- Integer part of a number lexeme: `0` or a nonzero digit run. -/
def intPart (l : List Char) : Option (List Char × List Char) :=
  match l with
  | '0' :: _ => some (['0'], l.tail)
  | c :: _ => if c.isDigit then digitRun l else none
  | [] => none

/-- Optional fraction part of a number lexeme. -/
def fracPart (l : List Char) : Option (List Char × List Char) :=
  match l with
  | '.' :: rest =>
    match digitRun rest with
    | none => none
    | some (ds, l3) => some ('.' :: ds, l3)
  | _ => some ([], l)

/-- Optional exponent part of a number lexeme. -/
def expPart (l : List Char) : Option (List Char × List Char) :=
  match l with
  | c :: rest =>
    if c = 'e' || c = 'E' then
      match rest with
      | s :: rest2 =>
        if s = '+' || s = '-' then
          match digitRun rest2 with
          | none => none
          | some (ds, l4) => some (c :: s :: ds, l4)
        else
          match digitRun rest with
          | none => none
          | some (ds, l4) => some (c :: ds, l4)
      | [] => none
    else some ([], l)
  | [] => some ([], l)

/-- Parse a JSON number lexeme (sign, integer part, optional fraction and
exponent), returning the raw lexeme. -/
def parseNumber (l : List Char) : Option (List Char × List Char) :=
  match intPart (signPart l).2 with
  | none => none
  | some (ip, l2) =>
    match fracPart l2 with
    | none => none
    | some (fp, l3) =>
      match expPart l3 with
      | none => none
      | some (ep, l4) => some ((signPart l).1 ++ ip ++ fp ++ ep, l4)

mutual

/-- Parse one JSON value.  The fuel only bounds recursion depth; `from_str`
supplies more fuel than any input can consume. -/
def parseVal : Nat → List Char → Option (Json × List Char)
  | 0, _ => none
  | f + 1, l =>
    match skipWs l with
    | [] => none
    | c :: rest =>
      if c = '{' then parseObjFirst f rest
      else if c = '[' then parseArrFirst f rest
      else if c = '"' then
        match parseStringBody rest with
        | none => none
        | some (b, r) => some (Json.str b, r)
      else if c = 't' then
        match rest with
        | 'r' :: 'u' :: 'e' :: rest2 => some (Json.bool true, rest2)
        | _ => none
      else if c = 'f' then
        match rest with
        | 'a' :: 'l' :: 's' :: 'e' :: rest2 => some (Json.bool false, rest2)
        | _ => none
      else if c = 'n' then
        match rest with
        | 'u' :: 'l' :: 'l' :: rest2 => some (Json.null, rest2)
        | _ => none
      else if c = '-' || c.isDigit then
        match parseNumber (c :: rest) with
        | none => none
        | some (x, r) => some (Json.num x, r)
      else none

/-- Parse an object after the opening brace: either an immediately closed
empty object or a member list. -/
def parseObjFirst : Nat → List Char → Option (Json × List Char)
  | 0, _ => none
  | f + 1, l =>
    match skipWs l with
    | '}' :: rest => some (Json.obj [], rest)
    | _ => parseMembers f l []

/-- Parse `"key": value` members separated by commas until the closing
brace. -/
def parseMembers : Nat → List Char → List (List Char × Json) → Option (Json × List Char)
  | 0, _, _ => none
  | f + 1, l, acc =>
    match skipWs l with
    | '"' :: rest =>
      match parseStringBody rest with
      | none => none
      | some (k, rest2) =>
        match skipWs rest2 with
        | ':' :: rest3 =>
          match parseVal f rest3 with
          | none => none
          | some (v, rest4) =>
            match skipWs rest4 with
            | ',' :: rest5 => parseMembers f rest5 (acc ++ [(k, v)])
            | '}' :: rest5 => some (Json.obj (acc ++ [(k, v)]), rest5)
            | _ => none
        | _ => none
    | _ => none

/-- Parse an array after the opening bracket. -/
def parseArrFirst : Nat → List Char → Option (Json × List Char)
  | 0, _ => none
  | f + 1, l =>
    match skipWs l with
    | ']' :: rest => some (Json.arr [], rest)
    | _ => parseElems f l []

/-- Parse array elements separated by commas until the closing bracket. -/
def parseElems : Nat → List Char → List Json → Option (Json × List Char)
  | 0, _, _ => none
  | f + 1, l, acc =>
    match parseVal f l with
    | none => none
    | some (v, rest) =>
      match skipWs rest with
      | ',' :: rest2 => parseElems f rest2 (acc ++ [v])
      | ']' :: rest2 => some (Json.arr (acc ++ [v]), rest2)
      | _ => none

end

/-- `serde_json::from_str::<Value>`: parse one value and allow only trailing
whitespace. -/
def from_str (l : List Char) : Option Json :=
  match parseVal (2 * l.length + 2) l with
  | none => none
  | some (v, rest) => if skipWs rest = [] then some v else none

/-! ### The parsers only consume from the front -/

theorem skipWs_suffix (l : List Char) : skipWs l <:+ l :=
  List.dropWhile_suffix _

theorem suffix_of_skipWs_cons {l rest : List Char} {c : Char}
    (h : skipWs l = c :: rest) : rest <:+ l :=
  (List.suffix_cons c rest).trans (h ▸ skipWs_suffix l)

theorem parseStringBody_suffix : ∀ (l : List Char) {b r : List Char},
    parseStringBody l = some (b, r) → r <:+ l := by
  intro l
  induction l using parseStringBody.induct with
  | case1 => intro b r h; simp [parseStringBody] at h
  | case2 rest =>
    intro b r h
    simp only [parseStringBody, Option.some_inj, Prod.mk.injEq] at h
    rw [← h.2]
    exact List.suffix_cons _ _
  | case3 h1 h2 h3 h4 rest2 hhex ih =>
    intro b r h
    rw [parseStringBody.eq_def] at h
    simp [hhex] at h
    obtain ⟨a, hp, -⟩ := h
    exact (ih hp).trans (List.drop_suffix 6 ('\\' :: 'u' :: h1 :: h2 :: h3 :: h4 :: rest2))
  | case4 h1 h2 h3 h4 rest2 hhex =>
    intro b r h
    rw [parseStringBody.eq_def] at h
    simp [hhex] at h
  | case5 rest hno =>
    intro b r h
    cases rest with
    | nil => rw [parseStringBody.eq_def] at h; simp at h
    | cons a t =>
      cases t with
      | nil => rw [parseStringBody.eq_def] at h; simp at h
      | cons a2 t2 =>
        cases t2 with
        | nil => rw [parseStringBody.eq_def] at h; simp at h
        | cons a3 t3 =>
          cases t3 with
          | nil => rw [parseStringBody.eq_def] at h; simp at h
          | cons a4 t4 => exact absurd rfl (hno a a2 a3 a4 t4)
  | case6 e rest hne hesc ih =>
    intro b r h
    rw [parseStringBody.eq_def] at h
    simp [hne, hesc] at h
    obtain ⟨a, hp, -⟩ := h
    exact (ih hp).trans (List.drop_suffix 2 ('\\' :: e :: rest))
  | case7 e rest hne hesc =>
    intro b r h
    rw [parseStringBody.eq_def] at h
    simp [hne, hesc] at h
  | case8 c rest hq hbs hlt =>
    intro b r h
    have hq' : ¬c = '"' := fun hh => hq hh
    cases rest with
    | nil =>
      rw [parseStringBody.eq_def] at h
      simp [hq', hlt] at h
    | cons e t =>
      have hc' : ¬c = '\\' := fun hcc => hbs e t hcc rfl
      rw [parseStringBody.eq_def] at h
      simp [hq', hc', hlt] at h
  | case9 c rest hq hbs hlt ih =>
    intro b r h
    have hq' : ¬c = '"' := fun hh => hq hh
    cases rest with
    | nil =>
      rw [parseStringBody.eq_def] at h
      simp [hq', hlt] at h
      obtain ⟨a, hp, -⟩ := h
      simp [parseStringBody] at hp
    | cons e t =>
      have hc' : ¬c = '\\' := fun hcc => hbs e t hcc rfl
      rw [parseStringBody.eq_def] at h
      simp [hq', hc', hlt] at h
      obtain ⟨a, hp, -⟩ := h
      exact (ih hp).trans (List.drop_suffix 1 (c :: e :: t))

theorem signPart_suffix (l : List Char) : (signPart l).2 <:+ l := by
  unfold signPart
  split
  · exact List.suffix_cons _ _
  · exact List.suffix_rfl

theorem digitRun_suffix {l x r : List Char} (h : digitRun l = some (x, r)) : r <:+ l := by
  unfold digitRun at h
  split at h
  · simp at h
  · simp only [Option.some_inj, Prod.mk.injEq] at h
    rw [← h.2]
    exact List.drop_suffix _ _

theorem intPart_suffix {l x r : List Char} (h : intPart l = some (x, r)) : r <:+ l := by
  unfold intPart at h
  split at h
  · simp only [Option.some_inj, Prod.mk.injEq] at h
    rw [← h.2]
    exact List.suffix_cons _ _
  · split at h
    · exact digitRun_suffix h
    · simp at h
  · simp at h

theorem fracPart_suffix {l x r : List Char} (h : fracPart l = some (x, r)) : r <:+ l := by
  unfold fracPart at h
  split at h
  · rename_i rest
    split at h
    · simp at h
    · rename_i p hd
      simp only [Option.some_inj, Prod.mk.injEq] at h
      rw [← h.2]
      exact (digitRun_suffix hd).trans (List.suffix_cons _ _)
  · simp only [Option.some_inj, Prod.mk.injEq] at h
    rw [← h.2]

theorem expPart_suffix {l x r : List Char} (h : expPart l = some (x, r)) : r <:+ l := by
  cases l with
  | nil =>
    simp only [expPart, Option.some_inj, Prod.mk.injEq] at h
    rw [← h.2]
  | cons c rest =>
    simp only [expPart] at h
    by_cases hce : (c = 'e' || c = 'E') = true
    · rw [if_pos hce] at h
      cases rest with
      | nil => simp at h
      | cons s rest2 =>
        dsimp only at h
        by_cases hs : (s = '+' || s = '-') = true
        · rw [if_pos hs] at h
          cases hd : digitRun rest2 with
          | none => rw [hd] at h; simp at h
          | some p =>
            obtain ⟨ds, l4⟩ := p
            rw [hd] at h
            simp only [Option.some_inj, Prod.mk.injEq] at h
            rw [← h.2]
            exact (digitRun_suffix hd).trans
              ((List.suffix_cons _ _).trans (List.suffix_cons _ _))
        · rw [if_neg hs] at h
          cases hd : digitRun (s :: rest2) with
          | none => rw [hd] at h; simp at h
          | some p =>
            obtain ⟨ds, l4⟩ := p
            rw [hd] at h
            simp only [Option.some_inj, Prod.mk.injEq] at h
            rw [← h.2]
            exact (digitRun_suffix hd).trans (List.suffix_cons _ _)
    · rw [if_neg hce] at h
      simp only [Option.some_inj, Prod.mk.injEq] at h
      rw [← h.2]

theorem parseNumber_suffix {l x r : List Char} (h : parseNumber l = some (x, r)) :
    r <:+ l := by
  unfold parseNumber at h
  cases hip : intPart (signPart l).2 with
  | none => rw [hip] at h; simp at h
  | some p =>
    obtain ⟨ip, l2⟩ := p
    rw [hip] at h
    dsimp only at h
    cases hfp : fracPart l2 with
    | none => rw [hfp] at h; simp at h
    | some q =>
      obtain ⟨fp, l3⟩ := q
      rw [hfp] at h
      dsimp only at h
      cases hep : expPart l3 with
      | none => rw [hep] at h; simp at h
      | some w =>
        obtain ⟨ep, l4⟩ := w
        rw [hep] at h
        simp only [Option.some_inj, Prod.mk.injEq] at h
        rw [← h.2]
        exact (((expPart_suffix hep).trans (fracPart_suffix hfp)).trans
          (intPart_suffix hip)).trans (signPart_suffix l)

/-- All five mutually recursive parsers return a suffix of their input as the
unconsumed rest. -/
theorem parse_suffix (f : Nat) :
    (∀ l v r, parseVal f l = some (v, r) → r <:+ l) ∧
    (∀ l v r, parseObjFirst f l = some (v, r) → r <:+ l) ∧
    (∀ l acc v r, parseMembers f l acc = some (v, r) → r <:+ l) ∧
    (∀ l v r, parseArrFirst f l = some (v, r) → r <:+ l) ∧
    (∀ l acc v r, parseElems f l acc = some (v, r) → r <:+ l) := by
  induction f with
  | zero =>
    refine ⟨?_, ?_, ?_, ?_, ?_⟩
    · intro l v r h; simp [parseVal] at h
    · intro l v r h; simp [parseObjFirst] at h
    · intro l acc v r h; simp [parseMembers] at h
    · intro l v r h; simp [parseArrFirst] at h
    · intro l acc v r h; simp [parseElems] at h
  | succ f ih =>
    obtain ⟨ihV, ihO, ihM, ihA, ihE⟩ := ih
    refine ⟨?_, ?_, ?_, ?_, ?_⟩
    · -- parseVal
      intro l v r h
      simp only [parseVal] at h
      cases hsw : skipWs l with
      | nil => rw [hsw] at h; simp at h
      | cons c rest =>
        rw [hsw] at h
        dsimp only at h
        by_cases h1 : c = '\x7b'
        · rw [if_pos h1] at h
          exact (ihO rest v r h).trans (suffix_of_skipWs_cons hsw)
        · rw [if_neg h1] at h
          by_cases h2 : c = '['
          · rw [if_pos h2] at h
            exact (ihA rest v r h).trans (suffix_of_skipWs_cons hsw)
          · rw [if_neg h2] at h
            by_cases h3 : c = '"'
            · rw [if_pos h3] at h
              cases hp : parseStringBody rest with
              | none => rw [hp] at h; simp at h
              | some p =>
                obtain ⟨b2, r2⟩ := p
                rw [hp] at h
                simp only [Option.some_inj, Prod.mk.injEq] at h
                rw [← h.2]
                exact (parseStringBody_suffix rest hp).trans (suffix_of_skipWs_cons hsw)
            · rw [if_neg h3] at h
              by_cases h4 : c = 't'
              · rw [if_pos h4] at h
                split at h
                · rename_i rest2
                  simp only [Option.some_inj, Prod.mk.injEq] at h
                  rw [← h.2]
                  exact (List.drop_suffix 3 ('r' :: 'u' :: 'e' :: rest2)).trans
                    (suffix_of_skipWs_cons hsw)
                · simp at h
              · rw [if_neg h4] at h
                by_cases h5 : c = 'f'
                · rw [if_pos h5] at h
                  split at h
                  · rename_i rest2
                    simp only [Option.some_inj, Prod.mk.injEq] at h
                    rw [← h.2]
                    exact (List.drop_suffix 4 ('a' :: 'l' :: 's' :: 'e' :: rest2)).trans
                      (suffix_of_skipWs_cons hsw)
                  · simp at h
                · rw [if_neg h5] at h
                  by_cases h6 : c = 'n'
                  · rw [if_pos h6] at h
                    split at h
                    · rename_i rest2
                      simp only [Option.some_inj, Prod.mk.injEq] at h
                      rw [← h.2]
                      exact (List.drop_suffix 3 ('u' :: 'l' :: 'l' :: rest2)).trans
                        (suffix_of_skipWs_cons hsw)
                    · simp at h
                  · rw [if_neg h6] at h
                    by_cases h7 : (c = '-' || c.isDigit) = true
                    · rw [if_pos h7] at h
                      cases hp : parseNumber (c :: rest) with
                      | none => rw [hp] at h; simp at h
                      | some p =>
                        obtain ⟨x2, r2⟩ := p
                        rw [hp] at h
                        simp only [Option.some_inj, Prod.mk.injEq] at h
                        rw [← h.2]
                        exact (parseNumber_suffix hp).trans (hsw ▸ skipWs_suffix l)
                    · rw [if_neg h7] at h
                      simp at h
    · -- parseObjFirst
      intro l v r h
      simp only [parseObjFirst] at h
      split at h
      · rename_i rest heq
        simp only [Option.some_inj, Prod.mk.injEq] at h
        rw [← h.2]
        exact suffix_of_skipWs_cons heq
      · exact ihM l [] v r h
    · -- parseMembers
      intro l acc v r h
      simp only [parseMembers] at h
      split at h
      · rename_i rest heq1
        cases hp : parseStringBody rest with
        | none => rw [hp] at h; simp at h
        | some p =>
          obtain ⟨k, rest2⟩ := p
          rw [hp] at h
          dsimp only at h
          split at h
          · rename_i rest3 heq2
            cases hv : parseVal f rest3 with
            | none => rw [hv] at h; simp at h
            | some q =>
              obtain ⟨v2, rest4⟩ := q
              rw [hv] at h
              dsimp only at h
              have chain4 : rest4 <:+ l :=
                ((ihV rest3 v2 rest4 hv).trans (suffix_of_skipWs_cons heq2)).trans
                  ((parseStringBody_suffix rest hp).trans (suffix_of_skipWs_cons heq1))
              split at h
              · rename_i rest5 heq3
                exact (ihM rest5 (acc ++ [(k, v2)]) v r h).trans
                  ((suffix_of_skipWs_cons heq3).trans chain4)
              · rename_i rest5 heq3
                simp only [Option.some_inj, Prod.mk.injEq] at h
                rw [← h.2]
                exact (suffix_of_skipWs_cons heq3).trans chain4
              · simp at h
          · simp at h
      · simp at h
    · -- parseArrFirst
      intro l v r h
      simp only [parseArrFirst] at h
      split at h
      · rename_i rest heq
        simp only [Option.some_inj, Prod.mk.injEq] at h
        rw [← h.2]
        exact suffix_of_skipWs_cons heq
      · exact ihE l [] v r h
    · -- parseElems
      intro l acc v r h
      simp only [parseElems] at h
      cases hv : parseVal f l with
      | none => rw [hv] at h; simp at h
      | some p =>
        obtain ⟨v2, rest⟩ := p
        rw [hv] at h
        dsimp only at h
        have chain : rest <:+ l := ihV l v2 rest hv
        split at h
        · rename_i rest2 heq
          exact (ihE rest2 (acc ++ [v2]) v r h).trans
            ((suffix_of_skipWs_cons heq).trans chain)
        · rename_i rest2 heq
          simp only [Option.some_inj, Prod.mk.injEq] at h
          rw [← h.2]
          exact (suffix_of_skipWs_cons heq).trans chain
        · simp at h

theorem mem_of_skipWs_tail {l rest : List Char} {d c : Char}
    (hsw : skipWs l = d :: rest) (hc : c ∈ rest) : c ∈ l :=
  (skipWs_suffix l).subset (hsw ▸ List.mem_cons_of_mem d hc)

theorem mem_of_skipWs_head {l rest : List Char} {c : Char}
    (hsw : skipWs l = c :: rest) : c ∈ l :=
  (skipWs_suffix l).subset (hsw ▸ List.mem_cons_self c rest)

/-- A successful object parse consumes a closing brace: if any of the parsers
yields an object (and `parseObjFirst`/`parseMembers` always do), the input
contains `'\x7d'`. -/
theorem parse_obj_brace (f : Nat) :
    (∀ l v r, parseVal f l = some (v, r) → v.isObjB = true → '\x7d' ∈ l) ∧
    (∀ l v r, parseObjFirst f l = some (v, r) → '\x7d' ∈ l) ∧
    (∀ l acc v r, parseMembers f l acc = some (v, r) → '\x7d' ∈ l) ∧
    (∀ l v r, parseArrFirst f l = some (v, r) → v.isObjB = false) ∧
    (∀ l acc v r, parseElems f l acc = some (v, r) → v.isObjB = false) := by
  induction f with
  | zero =>
    refine ⟨?_, ?_, ?_, ?_, ?_⟩
    · intro l v r h; simp [parseVal] at h
    · intro l v r h; simp [parseObjFirst] at h
    · intro l acc v r h; simp [parseMembers] at h
    · intro l v r h; simp [parseArrFirst] at h
    · intro l acc v r h; simp [parseElems] at h
  | succ f ih =>
    obtain ⟨ihV, ihO, ihM, ihA, ihE⟩ := ih
    refine ⟨?_, ?_, ?_, ?_, ?_⟩
    · -- parseVal
      intro l v r h hobj
      simp only [parseVal] at h
      cases hsw : skipWs l with
      | nil => rw [hsw] at h; simp at h
      | cons c rest =>
        rw [hsw] at h
        dsimp only at h
        by_cases h1 : c = '\x7b'
        · rw [if_pos h1] at h
          exact mem_of_skipWs_tail hsw (ihO rest v r h)
        · rw [if_neg h1] at h
          by_cases h2 : c = '['
          · rw [if_pos h2] at h
            rw [ihA rest v r h] at hobj
            simp at hobj
          · rw [if_neg h2] at h
            by_cases h3 : c = '"'
            · rw [if_pos h3] at h
              cases hp : parseStringBody rest with
              | none => rw [hp] at h; simp at h
              | some p =>
                obtain ⟨b2, r2⟩ := p
                rw [hp] at h
                simp only [Option.some_inj, Prod.mk.injEq] at h
                rw [← h.1] at hobj
                simp [Json.isObjB] at hobj
            · rw [if_neg h3] at h
              by_cases h4 : c = 't'
              · rw [if_pos h4] at h
                split at h
                · simp only [Option.some_inj, Prod.mk.injEq] at h
                  rw [← h.1] at hobj
                  simp [Json.isObjB] at hobj
                · simp at h
              · rw [if_neg h4] at h
                by_cases h5 : c = 'f'
                · rw [if_pos h5] at h
                  split at h
                  · simp only [Option.some_inj, Prod.mk.injEq] at h
                    rw [← h.1] at hobj
                    simp [Json.isObjB] at hobj
                  · simp at h
                · rw [if_neg h5] at h
                  by_cases h6 : c = 'n'
                  · rw [if_pos h6] at h
                    split at h
                    · simp only [Option.some_inj, Prod.mk.injEq] at h
                      rw [← h.1] at hobj
                      simp [Json.isObjB] at hobj
                    · simp at h
                  · rw [if_neg h6] at h
                    by_cases h7 : (c = '-' || c.isDigit) = true
                    · rw [if_pos h7] at h
                      cases hp : parseNumber (c :: rest) with
                      | none => rw [hp] at h; simp at h
                      | some p =>
                        obtain ⟨x2, r2⟩ := p
                        rw [hp] at h
                        simp only [Option.some_inj, Prod.mk.injEq] at h
                        rw [← h.1] at hobj
                        simp [Json.isObjB] at hobj
                    · rw [if_neg h7] at h
                      simp at h
    · -- parseObjFirst
      intro l v r h
      simp only [parseObjFirst] at h
      split at h
      · rename_i rest heq
        exact mem_of_skipWs_head heq
      · exact ihM l [] v r h
    · -- parseMembers
      intro l acc v r h
      simp only [parseMembers] at h
      split at h
      · rename_i rest heq1
        cases hp : parseStringBody rest with
        | none => rw [hp] at h; simp at h
        | some p =>
          obtain ⟨k, rest2⟩ := p
          rw [hp] at h
          dsimp only at h
          split at h
          · rename_i rest3 heq2
            cases hv : parseVal f rest3 with
            | none => rw [hv] at h; simp at h
            | some q =>
              obtain ⟨v2, rest4⟩ := q
              rw [hv] at h
              dsimp only at h
              have push4 : '\x7d' ∈ rest4 → '\x7d' ∈ l := by
                intro hm
                have h3 : '\x7d' ∈ rest3 :=
                  ((parse_suffix f).1 rest3 v2 rest4 hv).subset hm
                have h2 : '\x7d' ∈ rest2 := mem_of_skipWs_tail heq2 h3
                have h1 : '\x7d' ∈ rest :=
                  (parseStringBody_suffix rest hp).subset h2
                exact mem_of_skipWs_tail heq1 h1
              split at h
              · rename_i rest5 heq3
                exact push4 (mem_of_skipWs_tail heq3 (ihM rest5 (acc ++ [(k, v2)]) v r h))
              · rename_i rest5 heq3
                exact push4 (mem_of_skipWs_head heq3)
              · simp at h
          · simp at h
      · simp at h
    · -- parseArrFirst
      intro l v r h
      simp only [parseArrFirst] at h
      split at h
      · rename_i rest heq
        simp only [Option.some_inj, Prod.mk.injEq] at h
        rw [← h.1]
        rfl
      · exact ihE l [] v r h
    · -- parseElems
      intro l acc v r h
      simp only [parseElems] at h
      cases hv : parseVal f l with
      | none => rw [hv] at h; simp at h
      | some p =>
        obtain ⟨v2, rest⟩ := p
        rw [hv] at h
        dsimp only at h
        split at h
        · rename_i rest2 heq
          exact ihE rest2 (acc ++ [v2]) v r h
        · rename_i rest2 heq
          simp only [Option.some_inj, Prod.mk.injEq] at h
          rw [← h.1]
          rfl
        · simp at h

/-- A parse of the whole document that yields an object implies the document
contains a closing brace. -/
theorem from_str_obj_brace {l : List Char} {ms : List (List Char × Json)}
    (h : from_str l = some (Json.obj ms)) : '\x7d' ∈ l := by
  unfold from_str at h
  cases hp : parseVal (2 * l.length + 2) l with
  | none => rw [hp] at h; simp at h
  | some p =>
    obtain ⟨v, rest⟩ := p
    rw [hp] at h
    dsimp only at h
    split at h
    · simp only [Option.some_inj] at h
      subst h
      exact (parse_obj_brace (2 * l.length + 2)).1 l _ rest hp rfl
    · simp at h

/-! ## The structured insertion engine (backend.rs:1170-1404)

All offsets are character offsets (see the header comment: the engine's byte
offsets always sit on character boundaries of the same string, and the two
indexings are order-isomorphic). -/

/-- `detect_indent_unit`'s loop state: the running minimum-length leading
whitespace (backend.rs:1255-1277). -/
def detectIndentGo : List (List Char) → Option (List Char) → List Char
  | [], none => str "  "
  | [], some m => m
  | l :: rest, acc =>
    if l.dropWhile Char.isWhitespace = [] then detectIndentGo rest acc
    else
      if l.takeWhile Char.isWhitespace = [] then detectIndentGo rest acc
      else if (l.takeWhile Char.isWhitespace).head? = some '\t' then str "\t"
      else
        match acc with
        | none => detectIndentGo rest (some (l.takeWhile Char.isWhitespace))
        | some cur =>
          if utf8Len (l.takeWhile Char.isWhitespace) < utf8Len cur then
            detectIndentGo rest (some (l.takeWhile Char.isWhitespace))
          else detectIndentGo rest acc

/-- `detect_indent_unit` (backend.rs:1255-1278): a tab wins outright, else the
shortest nonzero leading-whitespace run, else two spaces. -/
def detect_indent_unit (content : List Char) : List Char :=
  detectIndentGo (rustLines content) none

/-- The `:`-then-`{` scan after a matched quoted key
(backend.rs:1310-1324); returns the index of the opening brace. -/
def scanColonBrace : List Char → Bool → Nat → Option Nat
  | [], _, _ => none
  | ch :: rest, foundColon, i =>
    if ch = ':' && !foundColon then scanColonBrace rest true (i + 1)
    else if ch = '{' && foundColon then some i
    else if ch.isWhitespace then scanColonBrace rest foundColon (i + 1)
    else none

/-- The brace-depth tracker that honours strings and backslash escapes
(backend.rs:1328-1352); returns the index of the matching `}`. -/
def matchBrace : List Char → Int → Bool → Bool → Nat → Option Nat
  | [], _, _, _, _ => none
  | ch :: rest, depth, inString, escape, i =>
    if escape then matchBrace rest depth inString false (i + 1)
    else if ch = '\\' && inString then matchBrace rest depth inString true (i + 1)
    else if ch = '"' then matchBrace rest depth (!inString) escape (i + 1)
    else if ch = '{' && !inString then matchBrace rest (depth + 1) inString escape (i + 1)
    else if ch = '}' && !inString then
      if depth - 1 = 0 then some i else matchBrace rest (depth - 1) inString escape (i + 1)
    else matchBrace rest depth inString escape (i + 1)

/-- `find_key_object_range` (backend.rs:1298-1353): find `"key_name"` from
`search_from` on, expect `:` and `{`, and track braces to the matching `}`. -/
def find_key_object_range (content : List Char) (search_from : Nat)
    (key_name : List Char) : Option (Nat × Nat) :=
  match findSub (content.drop search_from) ('"' :: key_name ++ ['"']) with
  | none => none
  | some key_rel =>
    match scanColonBrace
        (content.drop (search_from + key_rel + (key_name.length + 2))) false 0 with
    | none => none
    | some i =>
      match matchBrace
          (content.drop (search_from + key_rel + (key_name.length + 2) + i + 1))
          1 false false 0 with
      | none => none
      | some j =>
        some (search_from + key_rel + (key_name.length + 2) + i,
          search_from + key_rel + (key_name.length + 2) + i + 1 + j)

/-- The walk of `find_nested_object_range` (backend.rs:1284-1294). -/
def findNestedGo (content : List Char) :
    List (List Char) → Nat → Option (Nat × Nat) → Option (Nat × Nat)
  | [], _, result => result
  | key :: ks, search_from, _ =>
    match find_key_object_range content search_from key with
    | none => none
    | some range => findNestedGo content ks (range.1 + 1) (some range)

/-- `find_nested_object_range` (backend.rs:1284-1294). -/
def find_nested_object_range (content : List Char) (key_chain : List (List Char)) :
    Option (Nat × Nat) :=
  findNestedGo content key_chain 0 none

/-- The parent-walk loop of the nested branch of `insert_key_into_json`
(backend.rs:1195-1206): `todo` counts the remaining iterations of
`for i in 0..parts.len() - 1`, the result is `(parent_brace_end, depth_found)`. -/
def walkAux (content : List Char) (parts : List (List Char)) :
    Nat → Nat → Option Nat → Nat → Option Nat × Nat
  | 0, _, acc, df => (acc, df)
  | todo + 1, i, acc, df =>
    match find_nested_object_range content (parts.take (i + 1)) with
    | some range => walkAux content parts todo (i + 1) (some range.2) (i + 1)
    | none => (acc, df)

/-- The parent walk of `insert_key_into_json` (backend.rs:1195-1206). -/
def walkParents (content : List Char) (parts : List (List Char)) : Option Nat × Nat :=
  walkAux content parts (parts.length - 1) 0 none 0

/-- The text `"<k>": "` that precedes an inserted value
(`format!("\"{}\": \"", k)`). -/
def key_open (k : List Char) : List Char := '"' :: k ++ str "\": \""

/-- `indent.repeat(n)`. -/
def indentRep (indent : List Char) (n : Nat) : List Char :=
  (List.replicate n indent).flatten

/-- The entry lines of the nested branch (backend.rs:1212-1230): openers for
every segment but the last, the leaf line, then the closing braces in
reverse. -/
def nestedEntryLines (indent : List Char) (base : Nat) (remaining : List (List Char))
    (value : List Char) : List (List Char) :=
  (remaining.enum.map fun p =>
    if p.1 = remaining.length - 1 then
      indentRep indent (base + p.1) ++ key_open p.2 ++ value ++ ['"']
    else
      indentRep indent (base + p.1) ++ '"' :: p.2 ++ str "\": " ++ ['{'])
  ++ (List.range (remaining.length - 1)).reverse.map fun i =>
      indentRep indent (base + i) ++ ['}']

/-- The loop finding which line holds `brace_offset`
(backend.rs:1367-1376): first line whose span contains the offset, with
`lines.len().saturating_sub(1)` as the default. -/
def braceLineGo (off : Nat) : List (List Char) → Nat → Nat → Nat → Nat
  | [], _, _, total => total - 1
  | line :: rest, i, cumulative, total =>
    if cumulative ≤ off && off ≤ cumulative + line.length then i
    else braceLineGo off rest (i + 1) (cumulative + line.length + 1) total

/-- Which line of `ls` contains the offset (backend.rs:1367-1376). -/
def braceLineOf (ls : List (List Char)) (off : Nat) : Nat :=
  braceLineGo off ls 0 0 ls.length

/-- The nearest preceding line with nonblank trim (backend.rs:1379-1381). -/
def lastNonBlankBefore (ls : List (List Char)) (bl : Nat) : Option Nat :=
  (List.range bl).reverse.find? fun i => !(trimCh (ls.getD i [])).isEmpty

/-- The comma repair (backend.rs:1379-1387): append `','` to the nearest
preceding nonblank line unless its trim already ends in `,`, `{` or `[`. -/
def commaFixBefore (ls : List (List Char)) (bl : Nat) : List (List Char) :=
  match lastNonBlankBefore ls bl with
  | none => ls
  | some i =>
    if (trimCh (ls.getD i [])).getLast? = some ',' ||
        (trimCh (ls.getD i [])).getLast? = some '{' ||
        (trimCh (ls.getD i [])).getLast? = some '[' then ls
    else ls.set i (ls.getD i [] ++ [','])

/-- `insert_text_before_offset` (backend.rs:1358-1404): comma-fix the lines,
splice the entry lines in before the line holding the brace, rejoin, and
preserve the trailing newline. -/
def insert_text_before_offset (content : List Char) (brace_offset : Nat)
    (entry : List Char) : Option (List Char × Nat) :=
  some (joinCh '\n'
      ((commaFixBefore (rustLines content) (braceLineOf (rustLines content) brace_offset)).take
          (braceLineOf (rustLines content) brace_offset)
        ++ rustLines entry
        ++ (commaFixBefore (rustLines content) (braceLineOf (rustLines content) brace_offset)).drop
          (braceLineOf (rustLines content) brace_offset))
      ++ (if content.getLast? = some '\n' then ['\n'] else []),
    braceLineOf (rustLines content) brace_offset)

/-- The branch logic of `insert_key_into_json` (backend.rs:1174-1251): the
brace offset to insert before, the entry text, the offset of the leaf line
within the entry, and the cursor column.  The splice itself is
`insert_text_before_offset`. -/
def insert_plan (content key value : List Char) :
    Option (Nat × List Char × Nat × Nat) :=
  match from_str content with
  | none => none
  | some root =>
    match asObject root with
    | none => none
    | some root_obj =>
      if root_obj.all (fun kv => !(Json.isObjB kv.2)) || (splitCh '.' key).length == 1 then
        match rfindChar content '}' with
        | none => none
        | some brace_offset =>
          some (brace_offset,
            detect_indent_unit content ++ key_open key ++ value ++ ['"'], 0,
            utf8Len (detect_indent_unit content) + utf8Len (key_open key))
      else
        match (splitCh '.' key).drop (walkParents content (splitCh '.' key)).2 |>.getLast? with
        | none => none
        | some leaf =>
          some ((walkParents content (splitCh '.' key)).1.getD
              ((rfindChar content '}').getD content.length),
            joinCh '\n'
              (nestedEntryLines (detect_indent_unit content)
                ((walkParents content (splitCh '.' key)).2 + 1)
                ((splitCh '.' key).drop (walkParents content (splitCh '.' key)).2) value),
            ((splitCh '.' key).drop (walkParents content (splitCh '.' key)).2).length - 1,
            utf8Len (indentRep (detect_indent_unit content)
              ((walkParents content (splitCh '.' key)).2 + 1 +
                ((splitCh '.' key).drop (walkParents content (splitCh '.' key)).2).length - 1)) +
              utf8Len (key_open leaf))

/-- `insert_key_into_json` (backend.rs:1174-1251): returns
`(new_content, cursor_line, cursor_character)`. -/
def insert_key_into_json (content key value : List Char) :
    Option (List Char × Nat × Nat) :=
  match insert_plan content key value with
  | none => none
  | some (brace_offset, entry, leaf_line_offset, cursor_col) =>
    match insert_text_before_offset content brace_offset entry with
    | none => none
    | some (new_content, insert_line) =>
      some (new_content, insert_line + leaf_line_offset, cursor_col)

/-! ## Diagnostics (backend.rs:247-335)

`KeyFinder` and `TranslationStore` live in `crate::i18n` (outside the
verified source); a found key usage and the store are abstract inputs of the
diagnostics computation, with exactly the interface the engine consumes. -/

/-- `FoundKeyUsage`: a located textual occurrence of a key. -/
structure FoundKey where
  key : List Char
  line : Nat
  start_char : Nat
  end_char : Nat

/-- The slice of the `TranslationStore` interface the diagnostics and hint
computations consume. -/
structure Store where
  key_exists : List Char → Bool
  get_translation : List Char → List Char → Option (List Char)
  get_missing_locales : List Char → List (List Char)

/-- LSP diagnostic severity (only the two the engine emits). -/
inductive Severity where
  | warning : Severity
  | hint : Severity
deriving DecidableEq

/-- LSP `NumberOrString` diagnostic code. -/
inductive CodeId where
  | num (n : Int) : CodeId
  | strc (s : List Char) : CodeId
deriving DecidableEq

/-- An LSP diagnostic (range, severity, code, source, message). -/
structure Diagnostic where
  start_line : Nat
  start_char : Nat
  end_line : Nat
  end_char : Nat
  severity : Option Severity
  code : Option CodeId
  source : Option (List Char)
  message : List Char
deriving DecidableEq

/-- The `missing-translation` diagnostic (backend.rs:262-278). -/
def missingDiag (fk : FoundKey) : Diagnostic :=
  ⟨fk.line, fk.start_char, fk.line, fk.end_char, some .warning,
    some (.strc (str "missing-translation")), some (str "i18n"),
    str "Translation key '" ++ fk.key ++ str "' not found"⟩

/-- The `raw-translation` diagnostic (backend.rs:283-302). -/
def rawDiag (fk : FoundKey) : Diagnostic :=
  ⟨fk.line, fk.start_char, fk.line, fk.end_char, some .warning,
    some (.strc (str "raw-translation")), some (str "i18n"),
    str "Translation '" ++ fk.key ++
      str "' has a raw placeholder value — use Go to Definition to edit"⟩

/-- The `incomplete-translation` diagnostic (backend.rs:309-329). -/
def incompleteDiag (fk : FoundKey) (missing : List (List Char)) : Diagnostic :=
  ⟨fk.line, fk.start_char, fk.line, fk.end_char, some .hint,
    some (.strc (str "incomplete-translation")), some (str "i18n"),
    str "Translation '" ++ fk.key ++ str "' missing in: " ++
      List.intercalate (str ", ") missing⟩

/-- The raw-placeholder test (backend.rs:282): first and last characters are
`'_'` and the byte length exceeds 2. -/
def rawPlaceholderB (v : List Char) : Bool :=
  v.head? = some '_' && v.getLast? = some '_' && decide (2 < utf8Len v)

/-- The diagnostics one found key usage contributes
(one iteration of the loop at backend.rs:260-332). -/
def diagnostics_for (store : Store) (source_locale : List Char) (fk : FoundKey) :
    List Diagnostic :=
  if !store.key_exists fk.key then [missingDiag fk]
  else
    match store.get_translation fk.key source_locale with
    | some v =>
      if rawPlaceholderB v then [rawDiag fk]
      else if (store.get_missing_locales fk.key).isEmpty then []
      else [incompleteDiag fk (store.get_missing_locales fk.key)]
    | none =>
      if (store.get_missing_locales fk.key).isEmpty then []
      else [incompleteDiag fk (store.get_missing_locales fk.key)]

/-- `compute_diagnostics` (backend.rs:247-335) over the usages the key finder
reports. -/
def compute_diagnostics (store : Store) (source_locale : List Char)
    (found_keys : List FoundKey) : List Diagnostic :=
  found_keys.flatMap (diagnostics_for store source_locale)

/-! ## Inlay hints (backend.rs:15-22 and 1091-1167) -/

/-- `truncate_string` (backend.rs:15-22): character-count based truncation. -/
def truncate_string (s : List Char) (max_chars : Nat) : List Char :=
  if s.length ≤ max_chars then s
  else s.take (max_chars - 3) ++ str "..."

/-- The observable part of one emitted inlay hint. -/
structure InlayHintData where
  line : Nat
  character : Nat
  label : List Char
deriving DecidableEq

/-- The hint character position (backend.rs:1141-1147): the usage's
`end_char`, bumped past one following quote — the quote test reads the byte
at index `end_char` of the line's UTF-8 encoding. -/
def hint_character (content : List Char) (fk : FoundKey) : Nat :=
  if (utf8Bytes ((rustLines content).getD fk.line [])).get? fk.end_char = some 39 ∨
      (utf8Bytes ((rustLines content).getD fk.line [])).get? fk.end_char = some 34 then
    fk.end_char + 1
  else fk.end_char

/-- The hint one found key usage yields when the source locale has a value
(backend.rs:1138-1161). -/
def inlay_hint_for (content : List Char) (store : Store) (source_locale : List Char)
    (fk : FoundKey) : Option InlayHintData :=
  match store.get_translation fk.key source_locale with
  | none => none
  | some t => some ⟨fk.line, hint_character content fk, str "= " ++ truncate_string t 30⟩

/-! ## Code actions (backend.rs:958-1002) -/

/-- The fixed `missing-translation` message format (backend.rs:276). -/
def missing_message (key : List Char) : List Char :=
  str "Translation key '" ++ key ++ str "' not found"

/-- Rust `str::strip_prefix` on lists. -/
def dropPrefixCh (p l : List Char) : Option (List Char) :=
  if p.isPrefixOf l then some (l.drop p.length) else none

/-- Rust `str::strip_suffix` on lists. -/
def dropSuffixCh (s l : List Char) : Option (List Char) :=
  if s.isSuffixOf l then some (l.take (l.length - s.length)) else none

/-- The key extraction of `code_action` (backend.rs:972-976). -/
def extract_key_from_message (msg : List Char) : Option (List Char) :=
  match dropPrefixCh (str "Translation key '") msg with
  | none => none
  | some rest => dropSuffixCh (str "' not found") rest

/-- The observable part of one quick-fix action. -/
structure CodeActionData where
  title : List Char
  kind : List Char
  command : List Char
  arguments : List (List Char)
deriving DecidableEq

/-- The actions one request diagnostic contributes
(one iteration of the loop at backend.rs:961-995). -/
def code_action_for (d : Diagnostic) : List CodeActionData :=
  if d.code = some (.strc (str "missing-translation")) then
    match extract_key_from_message d.message with
    | none => []
    | some k =>
      [⟨str "Create raw translation key '" ++ k ++ ['\''], str "quickfix",
        str "intl-lens.createRawTranslationKey", [k]⟩]
  else []

/-- `code_action` (backend.rs:958-1002): quick fixes for the request's
diagnostics, `none` when there are none (`Ok(None)`). -/
def code_action (diags : List Diagnostic) : Option (List CodeActionData) :=
  if (diags.flatMap code_action_for).isEmpty then none
  else some (diags.flatMap code_action_for)

/-! ## Completion prefix extraction (backend.rs:1406-1423) -/

/-- The characters making up the first `k` bytes of a string, or `none` when
`k` is not a character boundary (where Rust's `&line[..k]` panics). -/
def byteTakeOpt : List Char → Nat → Option (List Char)
  | _, 0 => some []
  | [], _ + 1 => none
  | c :: t, k + 1 =>
    if (utf8enc c).length ≤ k + 1 then
      match byteTakeOpt t (k + 1 - (utf8enc c).length) with
      | none => none
      | some r => some (c :: r)
    else none

/-- The literal call patterns (backend.rs:1409). -/
def quote_patterns : List (List Char) :=
  [str "t(\"", str "t('", str "$t(\"", str "$t('", str "i18n.t(\"", str "i18n.t('"]

/-- The pattern loop of `extract_completion_prefix` (backend.rs:1411-1420):
for the rightmost occurrence of each pattern in order, accept the text after
it when no quote intervenes. -/
def searchPatterns (before_cursor : List Char) : List (List Char) → Option (List Char)
  | [] => none
  | p :: ps =>
    match rfindSub before_cursor p with
    | none => searchPatterns before_cursor ps
    | some pos =>
      if !(before_cursor.drop (pos + p.length)).contains '"' &&
          !(before_cursor.drop (pos + p.length)).contains '\'' then
        some (before_cursor.drop (pos + p.length))
      else searchPatterns before_cursor ps

/-- `extract_completion_prefix` (backend.rs:1406-1423).  The outer `none`
models the panic of the byte slice `&line[..character.min(line.len())]` at a
non-boundary index; `some none` is the function's own `None`. -/
def extract_completion_prefix (line : List Char) (character : Nat) :
    Option (Option (List Char)) :=
  match byteTakeOpt line (min character (utf8Len line)) with
  | none => none
  | some before_cursor => some (searchPatterns before_cursor quote_patterns)

/-! ## Claim theorems -/

/-- C7: for every translation value the inlay-hint label is `"= "` followed by
the value truncated to at most 30 characters, counting character units: values
of at most 30 characters appear unmodified, longer ones are cut so the
truncated text ends in `"..."` and stays within 30 characters. -/
theorem inlay_label_truncation (content : List Char) (store : Store) (src : List Char)
    (fk : FoundKey) (t : List Char) (h : store.get_translation fk.key src = some t) :
    ∃ hint, inlay_hint_for content store src fk = some hint ∧
      hint.label = str "= " ++ truncate_string t 30 ∧
      (if t.length ≤ 30 then truncate_string t 30 = t
       else (truncate_string t 30).length ≤ 30 ∧ str "..." <:+ truncate_string t 30) := by
  refine ⟨_, by rw [inlay_hint_for, h], rfl, ?_⟩
  by_cases hlen : t.length ≤ 30
  · rw [if_pos hlen]
    unfold truncate_string
    rw [if_pos hlen]
  · rw [if_neg hlen]
    unfold truncate_string
    rw [if_neg hlen]
    constructor
    · rw [List.length_append, List.length_take]
      have : (str "...").length = 3 := rfl
      rw [this]
      omega
    · exact List.suffix_append _ _

/-- Witness for C7 at a 36-character value. -/
theorem inlay_label_truncation_witness :
    ∃ hint,
      inlay_hint_for (str "t(\"k\")")
          ⟨fun _ => true, fun _ _ => some (str "abcdefghijklmnopqrstuvwxyz0123456789"),
            fun _ => []⟩ (str "en") ⟨str "k", 0, 3, 4⟩ = some hint ∧
      hint.label = str "= " ++ truncate_string (str "abcdefghijklmnopqrstuvwxyz0123456789") 30 ∧
      (if (str "abcdefghijklmnopqrstuvwxyz0123456789").length ≤ 30 then
        truncate_string (str "abcdefghijklmnopqrstuvwxyz0123456789") 30 =
          str "abcdefghijklmnopqrstuvwxyz0123456789"
       else (truncate_string (str "abcdefghijklmnopqrstuvwxyz0123456789") 30).length ≤ 30 ∧
        str "..." <:+ truncate_string (str "abcdefghijklmnopqrstuvwxyz0123456789") 30) :=
  inlay_label_truncation _ _ _ _ _ rfl

/-- C5: a usage whose key exists and whose source-locale value is a raw
placeholder (first and last characters `'_'`, length over 2) contributes
exactly one `raw-translation` diagnostic of Warning severity and no
`incomplete-translation` diagnostic, whatever locales are missing. -/
theorem raw_placeholder_diagnostic (store : Store) (src : List Char) (fk : FoundKey)
    (v : List Char) (pre post : List FoundKey)
    (hex : store.key_exists fk.key = true)
    (hv : store.get_translation fk.key src = some v)
    (h1 : v.head? = some '_') (h2 : v.getLast? = some '_') (h3 : 2 < utf8Len v) :
    compute_diagnostics store src (pre ++ fk :: post) =
      compute_diagnostics store src pre ++ [rawDiag fk] ++
        compute_diagnostics store src post ∧
    (rawDiag fk).severity = some .warning ∧
    (rawDiag fk).code = some (.strc (str "raw-translation")) ∧
    (rawDiag fk).code ≠ some (.strc (str "incomplete-translation")) := by
  have hfor : diagnostics_for store src fk = [rawDiag fk] := by
    simp [diagnostics_for, hex, hv, rawPlaceholderB, h1, h2, h3]
  refine ⟨?_, rfl, rfl,
    (by decide :
      some (CodeId.strc (str "raw-translation")) ≠
        some (CodeId.strc (str "incomplete-translation")))⟩
  simp [compute_diagnostics, List.flatMap_append, List.flatMap_cons, hfor]

/-- Witness for C5 at a store whose only key is `greeting`, valued
`"_greeting_"` in the source locale, with every other locale missing. -/
theorem raw_placeholder_diagnostic_witness :
    compute_diagnostics
        ⟨fun k => k = str "greeting",
          fun _ _ => some (str "_greeting_"),
          fun _ => [str "de", str "fr"]⟩ (str "en")
        ([] ++ ⟨str "greeting", 0, 2, 10⟩ :: []) =
      compute_diagnostics
          ⟨fun k => k = str "greeting",
            fun _ _ => some (str "_greeting_"),
            fun _ => [str "de", str "fr"]⟩ (str "en") [] ++
        [rawDiag ⟨str "greeting", 0, 2, 10⟩] ++
        compute_diagnostics
          ⟨fun k => k = str "greeting",
            fun _ _ => some (str "_greeting_"),
            fun _ => [str "de", str "fr"]⟩ (str "en") [] ∧
    (rawDiag ⟨str "greeting", 0, 2, 10⟩).severity = some .warning ∧
    (rawDiag ⟨str "greeting", 0, 2, 10⟩).code = some (.strc (str "raw-translation")) ∧
    (rawDiag ⟨str "greeting", 0, 2, 10⟩).code ≠ some (.strc (str "incomplete-translation")) :=
  raw_placeholder_diagnostic _ _ _ (str "_greeting_") [] [] (by decide) rfl (by decide)
    (by decide) (by decide)

/-- Lexicographic comparison of locale codes. -/
def lexLe : List Char → List Char → Bool
  | [], _ => true
  | _ :: _, [] => false
  | a :: as, b :: bs => if a < b then true else if a = b then lexLe as bs else false

/-- The list is lexicographically sorted. -/
def lexSortedB : List (List Char) → Bool
  | [] => true
  | [_] => true
  | a :: b :: t => lexLe a b && lexSortedB (b :: t)

/-- C6: a usage whose key exists, is no raw placeholder in the source locale,
and has missing non-source locales contributes exactly one
`incomplete-translation` diagnostic of Hint severity whose message joins the
missing locale codes with `", "`; the codes are listed in lexicographic order
(the order is the `TranslationStore`'s, a collaborator outside the verified
source, modelled from the spec as sorted). -/
theorem incomplete_translation_diagnostic (store : Store) (src : List Char)
    (fk : FoundKey) (pre post : List FoundKey)
    (hex : store.key_exists fk.key = true)
    (hnr : ∀ v, store.get_translation fk.key src = some v → rawPlaceholderB v = false)
    (hne : store.get_missing_locales fk.key ≠ [])
    (hsorted : lexSortedB (store.get_missing_locales fk.key) = true) :
    compute_diagnostics store src (pre ++ fk :: post) =
      compute_diagnostics store src pre ++
        [incompleteDiag fk (store.get_missing_locales fk.key)] ++
        compute_diagnostics store src post ∧
    (incompleteDiag fk (store.get_missing_locales fk.key)).severity = some .hint ∧
    (incompleteDiag fk (store.get_missing_locales fk.key)).message =
      str "Translation '" ++ fk.key ++ str "' missing in: " ++
        List.intercalate (str ", ") (store.get_missing_locales fk.key) ∧
    lexSortedB (store.get_missing_locales fk.key) = true := by
  have hfor : diagnostics_for store src fk =
      [incompleteDiag fk (store.get_missing_locales fk.key)] := by
    unfold diagnostics_for
    rw [hex]
    cases hv : store.get_translation fk.key src with
    | none => simp [List.isEmpty_iff, hne]
    | some v => simp [hnr v hv, List.isEmpty_iff, hne]
  refine ⟨?_, rfl, by simp [incompleteDiag, List.append_assoc], hsorted⟩
  simp [compute_diagnostics, List.flatMap_append, List.flatMap_cons, hfor]

/-- Witness for C6: key valued `"Hello"` in the source locale, missing in
`de` and `fr`. -/
theorem incomplete_translation_diagnostic_witness :
    compute_diagnostics
        ⟨fun k => k = str "greeting", fun _ _ => some (str "Hello"),
          fun _ => [str "de", str "fr"]⟩ (str "en")
        ([] ++ ⟨str "greeting", 0, 2, 10⟩ :: []) =
      compute_diagnostics
          ⟨fun k => k = str "greeting", fun _ _ => some (str "Hello"),
            fun _ => [str "de", str "fr"]⟩ (str "en") [] ++
        [incompleteDiag ⟨str "greeting", 0, 2, 10⟩ [str "de", str "fr"]] ++
        compute_diagnostics
          ⟨fun k => k = str "greeting", fun _ _ => some (str "Hello"),
            fun _ => [str "de", str "fr"]⟩ (str "en") [] ∧
    (incompleteDiag ⟨str "greeting", 0, 2, 10⟩ [str "de", str "fr"]).severity = some .hint ∧
    (incompleteDiag ⟨str "greeting", 0, 2, 10⟩ [str "de", str "fr"]).message =
      str "Translation '" ++ str "greeting" ++ str "' missing in: " ++
        List.intercalate (str ", ") [str "de", str "fr"] ∧
    lexSortedB [str "de", str "fr"] = true :=
  incomplete_translation_diagnostic _ _ _ [] [] (by decide)
    (fun v hv => by cases hv; decide) (by decide) (by decide)

/-- C9: message construction followed by key extraction is the identity on
keys, and the code-action handler turns a `missing-translation` diagnostic
carrying that message into exactly one quick fix whose command carries the
key as its sole argument. -/
theorem missing_key_roundtrip (k : List Char) (d : Diagnostic)
    (hcode : d.code = some (.strc (str "missing-translation")))
    (hmsg : d.message = missing_message k) :
    extract_key_from_message (missing_message k) = some k ∧
    code_action [d] =
      some [⟨str "Create raw translation key '" ++ k ++ ['\''], str "quickfix",
        str "intl-lens.createRawTranslationKey", [k]⟩] := by
  have hextract : extract_key_from_message (missing_message k) = some k := by
    unfold extract_key_from_message missing_message dropPrefixCh dropSuffixCh
    rw [List.append_assoc,
      if_pos (List.isPrefixOf_iff_prefix.mpr (List.prefix_append _ _)),
      List.drop_left]
    dsimp only
    rw [if_pos (List.isSuffixOf_iff_suffix.mpr (List.suffix_append _ _))]
    have hl : (k ++ str "' not found").length - (str "' not found").length = k.length := by
      rw [List.length_append]
      omega
    rw [hl, List.take_left]
  refine ⟨hextract, ?_⟩
  have hfor : code_action_for d =
      [⟨str "Create raw translation key '" ++ k ++ ['\''], str "quickfix",
        str "intl-lens.createRawTranslationKey", [k]⟩] := by
    unfold code_action_for
    rw [if_pos hcode, hmsg, hextract]
  simp [code_action, hfor]

/-- Witness for C9 at the key `common.greeting`. -/
theorem missing_key_roundtrip_witness :
    extract_key_from_message (missing_message (str "common.greeting")) =
      some (str "common.greeting") ∧
    code_action [⟨0, 0, 0, 1, some .warning, some (.strc (str "missing-translation")),
        some (str "i18n"), missing_message (str "common.greeting")⟩] =
      some [⟨str "Create raw translation key '" ++ str "common.greeting" ++ ['\''],
        str "quickfix", str "intl-lens.createRawTranslationKey", [str "common.greeting"]⟩] :=
  missing_key_roundtrip (str "common.greeting") _ rfl rfl

theorem utf8Head_eq_39_iff (c : Char) : utf8Head c = 39 ↔ c = '\'' := by
  constructor
  · intro h
    by_cases ha : c.toNat < 128
    · rw [utf8Head_ascii ha] at h
      have h2 : Char.ofNat c.toNat = Char.ofNat 39 := by rw [h]
      rw [Char.ofNat_toNat] at h2
      rw [h2]
    · have := utf8Head_ge_of_not_ascii (Nat.le_of_not_lt ha)
      omega
  · intro h
    subst h
    decide

theorem utf8Head_eq_34_iff (c : Char) : utf8Head c = 34 ↔ c = '"' := by
  constructor
  · intro h
    by_cases ha : c.toNat < 128
    · rw [utf8Head_ascii ha] at h
      have h2 : Char.ofNat c.toNat = Char.ofNat 34 := by rw [h]
      rw [Char.ofNat_toNat] at h2
      rw [h2]
    · have := utf8Head_ge_of_not_ascii (Nat.le_of_not_lt ha)
      omega
  · intro h
    subst h
    decide

/-- C8 (counterexample): on the line `x = t('é')` the usage `é` ends at
character 8 and the character at index 8 is a single quote, so the claim
places the hint at character 9 — but the quote test reads *byte* 8 of the
line (the second byte of `é`), finds no quote, and the hint lands at 8. -/
theorem hint_position_byte_counterexample :
    ((rustLines (str "x = t('é')")).getD 0 []).get? 8 = some '\'' ∧
    inlay_hint_for (str "x = t('é')")
        ⟨fun _ => true, fun _ _ => some (str "Hi"), fun _ => []⟩ (str "en")
        ⟨str "é", 0, 7, 8⟩ = some ⟨0, 8, str "= Hi"⟩ ∧
    ¬ inlay_hint_for (str "x = t('é')")
        ⟨fun _ => true, fun _ _ => some (str "Hi"), fun _ => []⟩ (str "en")
        ⟨str "é", 0, 7, 8⟩ = some ⟨0, 9, str "= Hi"⟩ := by
  refine ⟨by decide, by decide, by decide⟩

/-- C8 (amended): for a usage with a source-locale value the hint sits on the
usage's line immediately after `end_char`, bumped one further exactly when
the following character is a quote, *provided every character before that
position is a single UTF-8 byte*; the engine's quote test reads the byte at
offset `end_char`, which coincides with the character at index `end_char`
only on such lines. -/
theorem hint_position_after_usage (content : List Char) (store : Store) (src : List Char)
    (fk : FoundKey) (t : List Char)
    (h : store.get_translation fk.key src = some t)
    (hascii : ∀ c ∈ ((rustLines content).getD fk.line []).take fk.end_char, c.toNat < 128) :
    inlay_hint_for content store src fk = some ⟨fk.line,
      (match ((rustLines content).getD fk.line []).get? fk.end_char with
       | some c => if c = '\'' ∨ c = '"' then fk.end_char + 1 else fk.end_char
       | none => fk.end_char),
      str "= " ++ truncate_string t 30⟩ := by
  have hchar : hint_character content fk =
      (match ((rustLines content).getD fk.line []).get? fk.end_char with
       | some c => if c = '\'' ∨ c = '"' then fk.end_char + 1 else fk.end_char
       | none => fk.end_char) := by
    unfold hint_character
    rw [utf8Bytes_get_ascii hascii]
    cases hc : ((rustLines content).getD fk.line []).get? fk.end_char with
    | none => simp
    | some c =>
      simp only [Option.map_some']
      by_cases hq : c = '\'' ∨ c = '"'
      · rcases hq with hq | hq
        · subst hq
          rw [if_pos (Or.inl (by decide)), if_pos (Or.inl rfl)]
        · subst hq
          rw [if_pos (Or.inr (by decide)), if_pos (Or.inr rfl)]
      · push_neg at hq
        rw [if_neg, if_neg (by
          intro hor
          rcases hor with hor | hor
          · exact hq.1 hor
          · exact hq.2 hor)]
        intro hor
        rcases hor with hor | hor
        · exact hq.1 ((utf8Head_eq_39_iff c).mp (Option.some_inj.mp hor))
        · exact hq.2 ((utf8Head_eq_34_iff c).mp (Option.some_inj.mp hor))
  unfold inlay_hint_for
  rw [h, hchar]

/-- Witness for the amended C8 on the all-ASCII line `x = t('k')`: the
character after the usage is a quote and the hint lands one past it. -/
theorem hint_position_after_usage_witness :
    inlay_hint_for (str "x = t('k')")
        ⟨fun _ => true, fun _ _ => some (str "Hi"), fun _ => []⟩ (str "en")
        ⟨str "k", 0, 7, 8⟩ = some ⟨0,
      (match ((rustLines (str "x = t('k')")).getD 0 []).get? 8 with
       | some c => if c = '\'' ∨ c = '"' then 8 + 1 else 8
       | none => 8),
      str "= " ++ truncate_string (str "Hi") 30⟩ :=
  hint_position_after_usage (str "x = t('k')") _ (str "en") ⟨str "k", 0, 7, 8⟩
    (str "Hi") rfl (by decide)

/-- C10 (code bug): the completion-prefix extraction is *not* total — at a
cursor index inside a multi-byte character the byte slice
`&line[..character.min(line.len())]` panics (modelled as the outer `none`),
while at boundary indices the function returns normally. -/
theorem completion_slice_panics :
     extract_completion_prefix (str "é") 1 = none ∧
     extract_completion_prefix (str "é") 2 = some none ∧
     extract_completion_prefix (str "x = t(\"common.") 14 =
      some (some (str "common.")) := by
  refine ⟨rfl, rfl, by decide⟩

theorem walkAux_df_le (content : List Char) (parts : List (List Char)) :
    ∀ todo i acc df, df ≤ i → (walkAux content parts todo i acc df).2 ≤ i + todo := by
  intro todo
  induction todo with
  | zero =>
    intro i acc df h
    simpa [walkAux] using h
  | succ t ih =>
    intro i acc df h
    simp only [walkAux]
    cases hf : find_nested_object_range content (parts.take (i + 1)) with
    | some range =>
      dsimp only
      have := ih (i + 1) (some range.2) (i + 1) le_rfl
      omega
    | none =>
      dsimp only
      omega

theorem walkParents_df_le (content : List Char) (parts : List (List Char)) :
    (walkParents content parts).2 ≤ parts.length - 1 := by
  have := walkAux_df_le content parts (parts.length - 1) 0 none 0 le_rfl
  simpa [walkParents] using this

/-- C2: the insertion reports no change exactly when the text fails to parse
as JSON, the parsed root is not an object, or no closing brace is reachable
for the insertion point — and in fact the third case never occurs on its own,
since an object parse guarantees a closing brace. -/
theorem insert_none_iff (content key value : List Char) :
    insert_key_into_json content key value = none ↔
      ((from_str content).bind asObject = none ∨ '}' ∉ content) := by
  constructor
  · intro h
    by_cases hro : (from_str content).bind asObject = none
    · exact Or.inl hro
    · right
      intro hmem
      cases hfs : from_str content with
      | none => exact hro (by rw [hfs]; rfl)
      | some root =>
        cases hao : asObject root with
        | none => exact hro (by rw [hfs]; exact hao)
        | some ms =>
          have hplan : ∃ p, insert_plan content key value = some p := by
            unfold insert_plan
            rw [hfs]
            dsimp only
            rw [hao]
            dsimp only
            by_cases hcond :
                (ms.all (fun kv => !(Json.isObjB kv.2)) || ((splitCh '.' key).length == 1)) = true
            · rw [if_pos hcond]
              obtain ⟨bo, hbo⟩ : ∃ bo, rfindChar content '}' = some bo :=
                Option.ne_none_iff_exists'.mp
                  (fun hn => (rfindChar_eq_none_iff.mp hn) hmem)
              rw [hbo]
              exact ⟨_, rfl⟩
            · rw [if_neg hcond]
              have hlen1 : 1 ≤ (splitCh '.' key).length := by
                cases hck : splitCh '.' key with
                | nil => exact absurd hck (splitCh_ne_nil '.' key)
                | cons a t => simp
              have hdf := walkParents_df_le content (splitCh '.' key)
              have hdrop :
                  (splitCh '.' key).drop (walkParents content (splitCh '.' key)).2 ≠ [] := by
                intro hnil
                rw [List.drop_eq_nil_iff] at hnil
                omega
              obtain ⟨leaf, hleaf⟩ : ∃ leaf,
                  ((splitCh '.' key).drop (walkParents content (splitCh '.' key)).2).getLast? =
                    some leaf :=
                Option.ne_none_iff_exists'.mp
                  (fun hn => hdrop (List.getLast?_eq_none_iff.mp hn))
              rw [hleaf]
              exact ⟨_, rfl⟩
          obtain ⟨p, hp⟩ := hplan
          obtain ⟨bo, entry, llo, cc⟩ := p
          rw [insert_key_into_json, hp] at h
          exact absurd h (by simp [insert_text_before_offset])
  · intro h
    have hro : (from_str content).bind asObject = none := by
      rcases h with h | h
      · exact h
      · cases hfs : from_str content with
        | none => rfl
        | some root =>
          cases root with
          | obj ms => exact absurd (from_str_obj_brace hfs) h
          | null => rfl
          | bool b => rfl
          | num x => rfl
          | str s => rfl
          | arr xs => rfl
    unfold insert_key_into_json insert_plan
    cases hfs : from_str content with
    | none => rfl
    | some root =>
      rw [hfs] at hro
      simp only [Option.some_bind] at hro
      dsimp only
      cases hao : asObject root with
      | none => rfl
      | some ms =>
        rw [hao] at hro
        exact absurd hro (by simp)

/-- C4: for a document the insertion accepts, when the nearest preceding
non-blank line at the insertion point does not already end in `,`, `{` or
`[`, the output is the input's lines with exactly one comma appended to that
line and the entry lines spliced in before the brace line — no other line is
modified. -/
theorem comma_repair (content key value : List Char) (bo : Nat) (entry : List Char)
    (llo cc : Nat) (j : Nat) (lj : List Char)
    (hplan : insert_plan content key value = some (bo, entry, llo, cc))
    (hj : lastNonBlankBefore (rustLines content) (braceLineOf (rustLines content) bo) =
      some j)
    (hget : (rustLines content).get? j = some lj)
    (hend : (trimCh lj).getLast? ≠ some ',' ∧ (trimCh lj).getLast? ≠ some '{' ∧
      (trimCh lj).getLast? ≠ some '[') :
    insert_key_into_json content key value =
      some (joinCh '\n'
        (((rustLines content).set j (lj ++ [','])).take
            (braceLineOf (rustLines content) bo)
          ++ rustLines entry
          ++ ((rustLines content).set j (lj ++ [','])).drop
            (braceLineOf (rustLines content) bo))
        ++ (if content.getLast? = some '\n' then ['\n'] else []),
        braceLineOf (rustLines content) bo + llo, cc) := by
  have hgd : (rustLines content).getD j [] = lj := by
    rw [List.getD_eq_getElem?_getD, ← List.get?_eq_getElem?, hget]
    rfl
  have hfix : commaFixBefore (rustLines content) (braceLineOf (rustLines content) bo) =
      (rustLines content).set j (lj ++ [',']) := by
    unfold commaFixBefore
    rw [hj]
    dsimp only
    rw [hgd, if_neg]
    simp [hend.1, hend.2.1, hend.2.2]
  unfold insert_key_into_json
  rw [hplan]
  dsimp only
  unfold insert_text_before_offset
  rw [hfix]

/-- Witness for C4: inserting `goodbye` into a flat document whose last entry
lacks a trailing comma. -/
theorem comma_repair_witness :
    insert_key_into_json (str "\x7b\n  \"hello\": \"world\"\n\x7d\n") (str "goodbye")
        (str "_goodbye_") =
      some (joinCh '\n'
        (((rustLines (str "\x7b\n  \"hello\": \"world\"\n\x7d\n")).set 1
            (str "  \"hello\": \"world\"" ++ [','])).take
            (braceLineOf (rustLines (str "\x7b\n  \"hello\": \"world\"\n\x7d\n")) 21)
          ++ rustLines (str "  \"goodbye\": \"_goodbye_\"")
          ++ ((rustLines (str "\x7b\n  \"hello\": \"world\"\n\x7d\n")).set 1
            (str "  \"hello\": \"world\"" ++ [','])).drop
            (braceLineOf (rustLines (str "\x7b\n  \"hello\": \"world\"\n\x7d\n")) 21))
        ++ (if (str "\x7b\n  \"hello\": \"world\"\n\x7d\n").getLast? = some '\n' then ['\n'] else []),
        braceLineOf (rustLines (str "\x7b\n  \"hello\": \"world\"\n\x7d\n")) 21 + 0, 14) :=
  comma_repair (str "\x7b\n  \"hello\": \"world\"\n\x7d\n") (str "goodbye") (str "_goodbye_")
    21 (str "  \"goodbye\": \"_goodbye_\"") 0 14 1 (str "  \"hello\": \"world\"")
    (by decide) (by decide) (by decide) ⟨by decide, by decide, by decide⟩

theorem getLast?_drop_of_lt {α : Type _} (l : List α) (n : Nat) (h : n < l.length) :
    (l.drop n).getLast? = l.getLast? := by
  induction l generalizing n with
  | nil => simp at h
  | cons a t ih =>
    cases n with
    | zero => rfl
    | succ n' =>
      simp only [List.length_cons, Nat.succ_lt_succ_iff] at h
      have htne : t ≠ [] := by
        intro h0
        rw [h0] at h
        simp at h
      rw [List.drop_succ_cons, ih n' h]
      cases t with
      | nil => exact absurd rfl htne
      | cons b t2 => rw [List.getLast?_cons_cons]

theorem getLast?_set_of_lt {α : Type _} (l : List α) (j : Nat) (a : α)
    (h : j + 1 < l.length) : (l.set j a).getLast? = l.getLast? := by
  induction l generalizing j with
  | nil => simp at h
  | cons b t ih =>
    cases j with
    | zero =>
      simp only [List.length_cons, Nat.succ_lt_succ_iff] at h
      have htne : t ≠ [] := by
        intro h0
        rw [h0] at h
        simp at h
      rw [List.set_cons_zero]
      cases t with
      | nil => exact absurd rfl htne
      | cons c t2 => rw [List.getLast?_cons_cons, List.getLast?_cons_cons]
    | succ j' =>
      simp only [List.length_cons, Nat.succ_lt_succ_iff] at h
      rw [List.set_cons_succ]
      have htne : t ≠ [] := by
        intro h0
        rw [h0] at h
        simp at h
      have hsne : t.set j' a ≠ [] := by
        intro h0
        have := List.length_set t j' a
        rw [h0] at this
        cases t with
        | nil => exact absurd rfl htne
        | cons c t2 => simp at this
      cases hs : t.set j' a with
      | nil => exact absurd hs hsne
      | cons c t2 =>
        rw [List.getLast?_cons_cons, ← hs, ih j' h]
        cases t with
        | nil => exact absurd rfl htne
        | cons d t3 => rw [List.getLast?_cons_cons]

theorem braceLineGo_lt (off : Nat) :
    ∀ (ls : List (List Char)) (i cum total : Nat), 1 ≤ total →
      i + ls.length = total → braceLineGo off ls i cum total < total := by
  intro ls
  induction ls with
  | nil =>
    intro i cum total h1 hlen
    simp only [braceLineGo]
    omega
  | cons line rest ih =>
    intro i cum total h1 hlen
    simp only [braceLineGo]
    split
    · simp only [List.length_cons] at hlen
      omega
    · exact ih (i + 1) (cum + line.length + 1) total h1 (by
        simp only [List.length_cons] at hlen
        omega)

theorem braceLineOf_lt_length {ls : List (List Char)} (off : Nat) (h : ls ≠ []) :
    braceLineOf ls off < ls.length := by
  unfold braceLineOf
  exact braceLineGo_lt off ls 0 0 ls.length
    (by cases ls with | nil => exact absurd rfl h | cons a t => simp) (by omega)

theorem get?_eq_some_getD {α : Type _} (l : List α) (j : Nat) (d : α)
    (h : j < l.length) : l.get? j = some (l.getD j d) := by
  cases hq : l.get? j with
  | none =>
    rw [List.get?_eq_none] at hq
    omega
  | some x =>
    rw [List.getD_eq_getElem?_getD, ← List.get?_eq_getElem?, hq]
    rfl

/-- What the comma repair can do: nothing, or append one comma to one line
before the brace line. -/
theorem commaFixBefore_cases (L : List (List Char)) (bl : Nat) :
    commaFixBefore L bl = L ∨
    ∃ j a, j < bl ∧ j < L.length ∧ L.get? j = some a ∧
      commaFixBefore L bl = L.set j (a ++ [',']) := by
  unfold commaFixBefore
  cases hj : lastNonBlankBefore L bl with
  | none => exact Or.inl rfl
  | some j =>
    have hjbl : j < bl := by
      have := List.mem_of_find?_eq_some hj
      rw [List.mem_reverse, List.mem_range] at this
      exact this
    have hpred := List.find?_some hj
    have hjlen : j < L.length := by
      by_contra hge
      rw [List.getD_eq_default L [] (by omega)] at hpred
      simp [trimCh] at hpred
    dsimp only
    by_cases hb : (decide ((trimCh (L.getD j [])).getLast? = some ',') ||
          decide ((trimCh (L.getD j [])).getLast? = some '{') ||
          decide ((trimCh (L.getD j [])).getLast? = some '[')) = true
    · rw [if_pos hb]
      exact Or.inl rfl
    · rw [if_neg hb]
      exact Or.inr ⟨j, L.getD j [], hjbl, hjlen, get?_eq_some_getD L j [] hjlen, rfl⟩

/-- C3 (counterexample): on a CRLF document the accepted insertion rewrites
every line terminator — the untouched region `  "a": "x",` followed by its
carriage return does not appear byte-for-byte in the output (no `'\r'`
survives at all), although the edit only touches the `"b"` line (comma) and
the inserted line. -/
theorem crlf_untouched_region_counterexample :
    insert_key_into_json (str "\x7b\r\n  \"a\": \"x\",\r\n  \"b\": \"y\"\r\n\x7d\r\n")
        (str "c") (str "z") =
      some (str "\x7b\n  \"a\": \"x\",\n  \"b\": \"y\",\n  \"c\": \"z\"\n\x7d\n", 3, 8) ∧
    '\r' ∈ str "\x7b\r\n  \"a\": \"x\",\r\n  \"b\": \"y\"\r\n\x7d\r\n" ∧
    '\r' ∉ str "\x7b\n  \"a\": \"x\",\n  \"b\": \"y\",\n  \"c\": \"z\"\n\x7d\n" ∧
    ¬ (str "  \"a\": \"x\",\r" <:+: str "\x7b\n  \"a\": \"x\",\n  \"b\": \"y\",\n  \"c\": \"z\"\n\x7d\n") := by
  refine ⟨rfl, by decide, by decide, by decide⟩

/-- C3 (amended): for a carriage-return-free document the insertion accepts,
the input is exactly its lines joined by `'\n'` plus its optional trailing
newline; the output is those same lines with at most one comma appended to
one line before the splice point and the entry lines spliced in — every
other line passes through byte-for-byte — and the output ends with a
trailing newline iff the input does. -/
theorem insert_preserves_untouched_regions (content key value out : List Char)
    (cl cc : Nat)
    (hacc : insert_key_into_json content key value = some (out, cl, cc))
    (hcr : '\r' ∉ content) :
    content = joinCh '\n' (rustLines content) ++
      (if content.getLast? = some '\n' then ['\n'] else []) ∧
    (∃ L' E bl,
      ((L' = rustLines content) ∨ ∃ j a, j < bl ∧ (rustLines content).get? j = some a ∧
        L' = (rustLines content).set j (a ++ [','])) ∧
      out = joinCh '\n' (L'.take bl ++ E ++ L'.drop bl) ++
        (if content.getLast? = some '\n' then ['\n'] else [])) ∧
    (out.getLast? = some '\n' ↔ content.getLast? = some '\n') := by
  have hne : content ≠ [] := by
    intro h0
    subst h0
    rw [show insert_key_into_json [] key value = none from rfl] at hacc
    exact absurd hacc (by simp)
  have hLne : rustLines content ≠ [] := rustLines_ne_nil hne
  obtain ⟨bo, entry, llo, ccc, hplan⟩ :
      ∃ bo entry llo ccc, insert_plan content key value = some (bo, entry, llo, ccc) := by
    cases hp : insert_plan content key value with
    | none =>
      rw [insert_key_into_json, hp] at hacc
      exact absurd hacc (by simp)
    | some p =>
      obtain ⟨bo, entry, llo, ccc⟩ := p
      exact ⟨bo, entry, llo, ccc, rfl⟩
  rw [insert_key_into_json, hplan] at hacc
  unfold insert_text_before_offset at hacc
  dsimp only at hacc
  rw [Option.some_inj, Prod.mk.injEq, Prod.mk.injEq] at hacc
  obtain ⟨hout, hcl, hcc⟩ := hacc
  have hrec := rustLines_reconstruct hne hcr
  refine ⟨hrec.symm, ?_, ?_⟩
  · refine ⟨commaFixBefore (rustLines content) (braceLineOf (rustLines content) bo),
      rustLines entry, braceLineOf (rustLines content) bo, ?_, hout.symm⟩
    rcases commaFixBefore_cases (rustLines content) (braceLineOf (rustLines content) bo)
      with hfix | ⟨j, a, hjbl, hjlen, hja, hfix⟩
    · exact Or.inl hfix
    · exact Or.inr ⟨j, a, hjbl, hja, hfix⟩
  · by_cases hnlc : content.getLast? = some '\n'
    · rw [hnlc]
      rw [← hout]
      rw [if_pos hnlc]
      simp [List.getLast?_concat]
    · rw [← hout, if_neg hnlc]
      constructor
      · intro hcontra
        exfalso
        -- the last line of the output is the last line of the input,
        -- which is nonempty and newline-free
        have hblt : braceLineOf (rustLines content) bo < (rustLines content).length :=
          braceLineOf_lt_length bo hLne
        obtain ⟨p, hp⟩ : ∃ p, (rustLines content).getLast? = some p :=
          Option.ne_none_iff_exists'.mp
            (fun h0 => hLne (List.getLast?_eq_none_iff.mp h0))
        have hpmem : p ∈ rustLines content := mem_of_getLast?_eq hp
        have hpnl : '\n' ∉ p := not_nl_mem_rustLines hpmem
        have hcontent : content = joinCh '\n' (rustLines content) := by
          conv_lhs => rw [← hrec]
          rw [if_neg hnlc, List.append_nil]
        have hpne : p ≠ [] := by
          intro hp0
          subst hp0
          by_cases hlen2 : 2 ≤ (rustLines content).length
          · exact hnlc (hcontent ▸ joinCh_getLast?_of_last_nil '\n' hp hlen2)
          · have hlen1 : (rustLines content).length = 1 := by
              cases hL : rustLines content with
              | nil => exact absurd hL hLne
              | cons x t =>
                rw [hL] at hlen2
                cases t with
                | nil => rfl
                | cons y t2 =>
                  exact absurd (by simp only [List.length_cons]; omega) hlen2
            have hLeq : rustLines content = [[]] := by
              cases hL : rustLines content with
              | nil => exact absurd hL hLne
              | cons x t =>
                rw [hL] at hlen1 hp
                cases t with
                | nil =>
                  rw [List.getLast?_singleton, Option.some_inj] at hp
                  rw [hp]
                | cons y t2 => simp at hlen1
            rw [hLeq] at hcontent
            exact hne (by rw [hcontent]; rfl)
        -- the comma-fixed list keeps the same last line
        set L := rustLines content with hLdef
        set bl := braceLineOf L bo with hbl
        have hfixlast :
            (commaFixBefore L bl).getLast? = some p := by
          rcases commaFixBefore_cases L bl with hfix | ⟨j, a, hjbl, hjlen, hja, hfix⟩
          · rw [hfix, hp]
          · rw [hfix]
            rw [getLast?_set_of_lt L j (a ++ [',']) (by omega), hp]
        have hfixlen : (commaFixBefore L bl).length = L.length := by
          rcases commaFixBefore_cases L bl with hfix | ⟨j, a, hjbl, hjlen, hja, hfix⟩
          · rw [hfix]
          · rw [hfix, List.length_set]
        have hdropne : (commaFixBefore L bl).drop bl ≠ [] := by
          intro h0
          rw [List.drop_eq_nil_iff, hfixlen] at h0
          omega
        have hdroplast :
            ((commaFixBefore L bl).drop bl).getLast? = some p := by
          rw [getLast?_drop_of_lt _ bl (by rw [hfixlen]; exact hblt), hfixlast]
        have hnewlast :
            ((commaFixBefore L bl).take bl ++ rustLines entry ++
              (commaFixBefore L bl).drop bl).getLast? = some p := by
          rw [List.getLast?_append_of_ne_nil _ hdropne, hdroplast]
        have hjoin :=
          joinCh_getLast?_of_last_ne_nil '\n' hnewlast hpne
        rw [List.append_nil] at hcontra
        rw [hjoin] at hcontra
        obtain ⟨c, hc⟩ : ∃ c, p.getLast? = some c :=
          Option.ne_none_iff_exists'.mp
            (fun h0 => hpne (List.getLast?_eq_none_iff.mp h0))
        rw [hc, Option.some_inj] at hcontra
        exact hpnl (hcontra ▸ mem_of_getLast?_eq hc)
      · intro h0
        exact absurd h0 hnlc

/-- Witness for the amended C3 at a small flat document. -/
theorem insert_preserves_untouched_regions_witness :
    (str "\x7b\n  \"a\": \"b\"\n\x7d\n") = joinCh '\n' (rustLines (str "\x7b\n  \"a\": \"b\"\n\x7d\n")) ++
      (if (str "\x7b\n  \"a\": \"b\"\n\x7d\n").getLast? = some '\n' then ['\n'] else []) ∧
    (∃ L' E bl,
      ((L' = rustLines (str "\x7b\n  \"a\": \"b\"\n\x7d\n")) ∨ ∃ j a, j < bl ∧
        (rustLines (str "\x7b\n  \"a\": \"b\"\n\x7d\n")).get? j = some a ∧
        L' = (rustLines (str "\x7b\n  \"a\": \"b\"\n\x7d\n")).set j (a ++ [','])) ∧
      (str "\x7b\n  \"a\": \"b\",\n  \"c\": \"d\"\n\x7d\n") =
        joinCh '\n' (L'.take bl ++ E ++ L'.drop bl) ++
        (if (str "\x7b\n  \"a\": \"b\"\n\x7d\n").getLast? = some '\n' then ['\n'] else [])) ∧
    ((str "\x7b\n  \"a\": \"b\",\n  \"c\": \"d\"\n\x7d\n").getLast? = some '\n' ↔
      (str "\x7b\n  \"a\": \"b\"\n\x7d\n").getLast? = some '\n') :=
  insert_preserves_untouched_regions (str "\x7b\n  \"a\": \"b\"\n\x7d\n") (str "c") (str "d")
    (str "\x7b\n  \"a\": \"b\",\n  \"c\": \"d\"\n\x7d\n") 2 8 rfl (by decide)

theorem drop_length_sub_one {α : Type _} (l : List α) (leaf : α)
    (h : l.getLast? = some leaf) : l.drop (l.length - 1) = [leaf] := by
  induction l with
  | nil => simp at h
  | cons a t ih =>
    cases t with
    | nil =>
      rw [List.getLast?_singleton, Option.some_inj] at h
      rw [h]
      rfl
    | cons b t2 =>
      rw [List.getLast?_cons_cons] at h
      have := ih h
      simp only [List.length_cons] at this ⊢
      rw [Nat.add_sub_cancel] at this ⊢
      rw [List.drop_succ_cons]
      exact this

theorem detectIndentGo_no_nl : ∀ (ls : List (List Char)) (acc : Option (List Char)),
    (∀ l ∈ ls, '\n' ∉ l) → (∀ m, acc = some m → '\n' ∉ m) →
    '\n' ∉ detectIndentGo ls acc := by
  intro ls
  induction ls with
  | nil =>
    intro acc hls hacc
    cases acc with
    | none => decide
    | some m => exact hacc m rfl
  | cons l rest ih =>
    intro acc hls hacc
    have hl : '\n' ∉ l := hls l (List.mem_cons_self _ _)
    have hrest : ∀ l2 ∈ rest, '\n' ∉ l2 := fun l2 h2 => hls l2 (List.mem_cons_of_mem _ h2)
    have hlead : '\n' ∉ l.takeWhile Char.isWhitespace :=
      fun hm => hl ((List.takeWhile_prefix _).subset hm)
    rw [detectIndentGo.eq_def]
    dsimp only
    by_cases h1 : l.dropWhile Char.isWhitespace = []
    · rw [if_pos h1]
      exact ih acc hrest hacc
    · rw [if_neg h1]
      by_cases h2 : l.takeWhile Char.isWhitespace = []
      · rw [if_pos h2]
        exact ih acc hrest hacc
      · rw [if_neg h2]
        by_cases h3 : (l.takeWhile Char.isWhitespace).head? = some '\t'
        · rw [if_pos h3]
          decide
        · rw [if_neg h3]
          cases acc with
          | none =>
            dsimp only
            exact ih _ hrest (fun m hm => (Option.some_inj.mp hm) ▸ hlead)
          | some cur =>
            dsimp only
            by_cases h4 : utf8Len (l.takeWhile Char.isWhitespace) < utf8Len cur
            · rw [if_pos h4]
              exact ih _ hrest (fun m hm => (Option.some_inj.mp hm) ▸ hlead)
            · rw [if_neg h4]
              exact ih _ hrest hacc

theorem detect_indent_unit_no_nl (content : List Char) :
    '\n' ∉ detect_indent_unit content := by
  unfold detect_indent_unit
  exact detectIndentGo_no_nl _ none (fun l h => not_nl_mem_rustLines h)
    (fun m hm => by simp at hm)

theorem findNestedGo_take_isSome (content : List Char) :
    ∀ (ks : List (List Char)) (sf : Nat) (res : Option (Nat × Nat)) (r : Nat × Nat),
      findNestedGo content ks sf res = some r → ∀ j, (res.isSome ∨ 1 ≤ j) →
      j ≤ ks.length → (findNestedGo content (ks.take j) sf res).isSome := by
  intro ks
  induction ks with
  | nil =>
    intro sf res r h j hj hlen
    rw [List.take_nil]
    have h0 : findNestedGo content [] sf res = some r := h
    rw [h0]
    rfl
  | cons k ks ih =>
    intro sf res r h j hj hlen
    cases hf : find_key_object_range content sf k with
    | none =>
      rw [findNestedGo, hf] at h
      exact absurd h (by simp)
    | some range =>
      rw [findNestedGo, hf] at h
      dsimp only at h
      cases j with
      | zero =>
        rcases hj with hj | hj
        · rw [List.take_zero]
          exact hj
        · omega
      | succ j' =>
        rw [List.take_succ_cons, findNestedGo, hf]
        dsimp only
        exact ih (range.1 + 1) (some range) r h j' (Or.inl rfl) (by
          simp only [List.length_cons] at hlen
          omega)

theorem walkAux_full (content : List Char) (parts : List (List Char)) :
    ∀ (todo i : Nat) (acc : Option Nat) (df : Nat) (rr : Nat × Nat),
      1 ≤ todo →
      (∀ j, i < j → j ≤ i + todo →
        (find_nested_object_range content (parts.take j)).isSome) →
      find_nested_object_range content (parts.take (i + todo)) = some rr →
      walkAux content parts todo i acc df = (some rr.2, i + todo) := by
  intro todo
  induction todo with
  | zero =>
    intro i acc df rr h1
    omega
  | succ t ih =>
    intro i acc df rr h1 hall hdeep
    simp only [walkAux]
    cases t with
    | zero =>
      rw [hdeep]
      dsimp only
      rfl
    | succ t' =>
      have hstep : (find_nested_object_range content (parts.take (i + 1))).isSome :=
        hall (i + 1) (by omega) (by omega)
      obtain ⟨range, hr⟩ := Option.isSome_iff_exists.mp hstep
      rw [hr]
      dsimp only
      have hdeep' :
          find_nested_object_range content (parts.take (i + 1 + (t' + 1))) = some rr := by
        rw [show i + 1 + (t' + 1) = i + (t' + 1 + 1) from by omega]
        exact hdeep
      have hres := ih (i + 1) (some range.2) (i + 1) rr (by omega)
        (fun j hj1 hj2 => hall j (by omega) (by omega)) hdeep'
      rw [show i + 1 + (t' + 1) = i + (t' + 1 + 1) from by omega] at hres
      exact hres

/-- C1 (counterexample, two failure modes).  First: the nested walk locates
parent objects by a *textual* scan for the quoted segment, so a string
*value* equal to the segment name shadows the real nested object — the root
has a genuine `"common"` object, yet `find_nested_object_range` fails, the
engine falls back to the root closing brace, and a *duplicate* sibling
`"common"` block is appended at the root: the leaf lands after line 5,
outside the existing object (lines 2-4).  Second: when the located parent
sits on a single line (the object `"common"` written inline), the scan
succeeds with both brace offsets on line 1, yet the engine splices the leaf
line *before* the whole parent line — outside the located object, and the
result is not even well-formed JSON.  Both refute "strictly inside the
deepest matching object, never at the root's closing brace". -/
theorem nested_insert_outside_parent_counterexample :
    from_str (str "\x7b\n  \"a\": \"common\",\n  \"common\": \x7b\n    \"hello\": \"world\"\n  \x7d\n\x7d\n") =
      some (Json.obj [(str "a", Json.str (str "common")),
        (str "common", Json.obj [(str "hello", Json.str (str "world"))])]) ∧
    find_nested_object_range
      (str "\x7b\n  \"a\": \"common\",\n  \"common\": \x7b\n    \"hello\": \"world\"\n  \x7d\n\x7d\n")
      [str "common"] = none ∧
    insert_key_into_json
      (str "\x7b\n  \"a\": \"common\",\n  \"common\": \x7b\n    \"hello\": \"world\"\n  \x7d\n\x7d\n")
      (str "common.goodbye") (str "x") =
      some (str "\x7b\n  \"a\": \"common\",\n  \"common\": \x7b\n    \"hello\": \"world\"\n  \x7d,\n  \"common\": \x7b\n    \"goodbye\": \"x\"\n  \x7d\n\x7d\n",
        6, 16) ∧
    List.IsInfix (str "goodbye")
      (joinCh '\n' ((rustLines
        (str "\x7b\n  \"a\": \"common\",\n  \"common\": \x7b\n    \"hello\": \"world\"\n  \x7d,\n  \"common\": \x7b\n    \"goodbye\": \"x\"\n  \x7d\n\x7d\n")).drop 5)) ∧
    ¬ List.IsInfix (str "goodbye")
      (joinCh '\n' ((rustLines
        (str "\x7b\n  \"a\": \"common\",\n  \"common\": \x7b\n    \"hello\": \"world\"\n  \x7d,\n  \"common\": \x7b\n    \"goodbye\": \"x\"\n  \x7d\n\x7d\n")).take 5)) ∧
    from_str (str "\x7b\n  \"common\": \x7b\"hello\": \"world\"\x7d\n\x7d\n") =
      some (Json.obj [(str "common",
        Json.obj [(str "hello", Json.str (str "world"))])]) ∧
    find_nested_object_range (str "\x7b\n  \"common\": \x7b\"hello\": \"world\"\x7d\n\x7d\n")
      [str "common"] = some (14, 31) ∧
    braceLineOf (rustLines (str "\x7b\n  \"common\": \x7b\"hello\": \"world\"\x7d\n\x7d\n")) 14 = 1 ∧
    braceLineOf (rustLines (str "\x7b\n  \"common\": \x7b\"hello\": \"world\"\x7d\n\x7d\n")) 31 = 1 ∧
    insert_key_into_json (str "\x7b\n  \"common\": \x7b\"hello\": \"world\"\x7d\n\x7d\n")
      (str "common.goodbye") (str "v") =
      some (str "\x7b\n    \"goodbye\": \"v\"\n  \"common\": \x7b\"hello\": \"world\"\x7d\n\x7d\n",
        1, 16) ∧
    List.IsInfix (str "goodbye")
      (joinCh '\n' ((rustLines
        (str "\x7b\n    \"goodbye\": \"v\"\n  \"common\": \x7b\"hello\": \"world\"\x7d\n\x7d\n")).take 2)) ∧
    ¬ List.IsInfix (str "goodbye")
      (joinCh '\n' ((rustLines
        (str "\x7b\n    \"goodbye\": \"v\"\n  \"common\": \x7b\"hello\": \"world\"\x7d\n\x7d\n")).drop 2)) := by
  refine ⟨rfl, rfl, rfl, ?_, ?_, rfl, rfl, ?_, ?_, rfl, ?_, ?_⟩
  · decide
  · decide
  · decide
  · decide
  · decide
  · decide

/-- C1 (amended): whenever the textual scan does locate the full parent
chain — `find_nested_object_range` succeeds on the key's leading segments,
returning the deepest object's open/close offsets `(o, cl)` — the engine
splices exactly one leaf line (`indent * depth ++ "<leaf>": "<value>"`)
immediately before the line holding that object's closing brace `cl`.
This pins the behaviour on *every* located chain; it is "strictly inside
the located parent" precisely when the closing brace sits on a later line
than the opening brace (the pretty-printed layout), while on a single-line
parent the same splice lands before the whole parent line, outside it
(the counterexample's second half). -/
theorem nested_insert_inside_located_parent
    (content key value : List Char) (root : Json) (ms : List (List Char × Json))
    (o cl : Nat)
    (hfs : from_str content = some root)
    (hao : asObject root = some ms)
    (hnotflat : ms.all (fun kv => !(Json.isObjB kv.2)) = false)
    (hlen : 2 ≤ (splitCh '.' key).length)
    (hdeep : find_nested_object_range content
      ((splitCh '.' key).take ((splitCh '.' key).length - 1)) = some (o, cl))
    (hnlv : '\n' ∉ value) (hnlk : '\n' ∉ key) :
    ∃ leaf,
      (splitCh '.' key).getLast? = some leaf ∧
      insert_key_into_json content key value =
        some (joinCh '\n'
            ((commaFixBefore (rustLines content)
                (braceLineOf (rustLines content) cl)).take
                (braceLineOf (rustLines content) cl)
              ++ [indentRep (detect_indent_unit content) (splitCh '.' key).length ++
                  key_open leaf ++ value ++ ['"']]
              ++ (commaFixBefore (rustLines content)
                  (braceLineOf (rustLines content) cl)).drop
                  (braceLineOf (rustLines content) cl))
            ++ (if content.getLast? = some '\n' then ['\n'] else []),
          braceLineOf (rustLines content) cl,
          utf8Len (indentRep (detect_indent_unit content) (splitCh '.' key).length) +
            utf8Len (key_open leaf)) := by
  have hne : splitCh '.' key ≠ [] := splitCh_ne_nil '.' key
  obtain ⟨leaf, hleaf⟩ : ∃ leaf, (splitCh '.' key).getLast? = some leaf := by
    cases hg : (splitCh '.' key).getLast? with
    | none => exact absurd (List.getLast?_eq_none_iff.mp hg) hne
    | some x => exact ⟨x, rfl⟩
  refine ⟨leaf, hleaf, ?_⟩
  have hdropeq : (splitCh '.' key).drop ((splitCh '.' key).length - 1) = [leaf] :=
    drop_length_sub_one _ _ hleaf
  have hprefix : ∀ j, 1 ≤ j → j ≤ (splitCh '.' key).length - 1 →
      (find_nested_object_range content ((splitCh '.' key).take j)).isSome := by
    intro j h1 h2
    have h3 := findNestedGo_take_isSome content
      ((splitCh '.' key).take ((splitCh '.' key).length - 1)) 0 none (o, cl) hdeep j
      (Or.inr h1) (by rw [List.length_take]; omega)
    rw [List.take_take, min_eq_left h2] at h3
    exact h3
  have hwalk : walkParents content (splitCh '.' key) =
      (some cl, (splitCh '.' key).length - 1) := by
    unfold walkParents
    have h4 := walkAux_full content (splitCh '.' key) ((splitCh '.' key).length - 1) 0
      none 0 (o, cl) (by omega) (fun j hj1 hj2 => hprefix j (by omega) (by omega))
      (by rw [Nat.zero_add]; exact hdeep)
    rw [Nat.zero_add] at h4
    exact h4
  have hbase : (splitCh '.' key).length - 1 + 1 = (splitCh '.' key).length := by omega
  have hcond : (ms.all (fun kv => !(Json.isObjB kv.2)) ||
      ((splitCh '.' key).length == 1)) = false := by
    rw [hnotflat]
    simp only [Bool.false_or]
    exact beq_eq_false_iff_ne.mpr (by omega)
  have hplan : insert_plan content key value =
      some (cl,
        joinCh '\n' (nestedEntryLines (detect_indent_unit content)
          ((splitCh '.' key).length - 1 + 1) [leaf] value),
        (1 : Nat) - 1,
        utf8Len (indentRep (detect_indent_unit content)
          ((splitCh '.' key).length - 1 + 1 + 1 - 1)) + utf8Len (key_open leaf)) := by
    unfold insert_plan
    rw [hfs]
    dsimp only
    rw [hao]
    dsimp only
    rw [hcond]
    rw [if_neg Bool.false_ne_true]
    rw [hwalk]
    dsimp only
    rw [hdropeq]
    rfl
  have hnlleaf : '\n' ∉ leaf :=
    fun hm => hnlk (mem_of_mem_splitCh (mem_of_getLast?_eq hleaf) hm)
  have hnlind : '\n' ∉ detect_indent_unit content := detect_indent_unit_no_nl content
  have hnlL : '\n' ∉ indentRep (detect_indent_unit content) (splitCh '.' key).length ++
      key_open leaf ++ value ++ ['"'] := by
    intro hm
    rcases List.mem_append.mp hm with hm | hm
    · rcases List.mem_append.mp hm with hm | hm
      · rcases List.mem_append.mp hm with hm | hm
        · obtain ⟨piece, hp, hc⟩ := List.mem_flatten.mp hm
          rw [List.eq_of_mem_replicate hp] at hc
          exact hnlind hc
        · simp only [key_open, List.mem_cons, List.mem_append] at hm
          rcases hm with (h | h) | h
          · exact absurd h (by decide)
          · exact hnlleaf h
          · exact absurd h (by decide)
      · exact hnlv hm
    · exact absurd hm (by decide)
  have hLne : indentRep (detect_indent_unit content) (splitCh '.' key).length ++
      key_open leaf ++ value ++ ['"'] ≠ [] := by simp
  have hrlL : rustLines (indentRep (detect_indent_unit content) (splitCh '.' key).length ++
      key_open leaf ++ value ++ ['"']) =
      [indentRep (detect_indent_unit content) (splitCh '.' key).length ++
        key_open leaf ++ value ++ ['"']] := by
    rw [rustLines_singleton hnlL hLne]
    congr 1
    apply stripCr_of_getLast_ne
    rw [List.getLast?_concat]
    decide
  have hentry : nestedEntryLines (detect_indent_unit content)
      ((splitCh '.' key).length - 1 + 1) [leaf] value =
      [indentRep (detect_indent_unit content) (splitCh '.' key).length ++
        key_open leaf ++ value ++ ['"']] := by
    rw [hbase]
    simp [nestedEntryLines, List.enum, List.enumFrom]
  have hbase2 : (splitCh '.' key).length - 1 + 1 + 1 - 1 = (splitCh '.' key).length := by
    omega
  unfold insert_key_into_json
  rw [hplan]
  dsimp only
  unfold insert_text_before_offset
  dsimp only
  rw [hentry, hbase2]
  have hjs : joinCh '\n'
      [indentRep (detect_indent_unit content) (splitCh '.' key).length ++
        key_open leaf ++ value ++ ['"']] =
      indentRep (detect_indent_unit content) (splitCh '.' key).length ++
        key_open leaf ++ value ++ ['"'] := rfl
  rw [hjs, hrlL]
  rfl

/-- Witness for the amended C1 at the nested test document. -/
theorem nested_insert_inside_located_parent_witness :
    insert_key_into_json (str "\x7b\n  \"common\": \x7b\n    \"hello\": \"world\"\n  \x7d\n\x7d\n")
      (str "common.goodbye") (str "bye") =
      some (str "\x7b\n  \"common\": \x7b\n    \"hello\": \"world\",\n    \"goodbye\": \"bye\"\n  \x7d\n\x7d\n",
        3, 16) := by
  obtain ⟨leaf, hl, hins⟩ := nested_insert_inside_located_parent
    (str "\x7b\n  \"common\": \x7b\n    \"hello\": \"world\"\n  \x7d\n\x7d\n")
    (str "common.goodbye") (str "bye")
    (Json.obj [(str "common", Json.obj [(str "hello", Json.str (str "world"))])])
    [(str "common", Json.obj [(str "hello", Json.str (str "world"))])]
    14 39 rfl rfl rfl (by decide) rfl (by decide) (by decide)
  rw [show (splitCh '.' (str "common.goodbye")).getLast? = some (str "goodbye") from rfl]
    at hl
  have hleq : str "goodbye" = leaf := Option.some_inj.mp hl
  rw [← hleq] at hins
  rw [hins]
  rfl

end IntlLens
